import Mathlib

/-!
Verification development for the realtime-clipboard server (src/server.js).

The core of the server is modelled shallowly:
  * the Version Store (per-(environment, originalFileName) metadata, live copy,
    archived version blobs) — `FileStore` and the operations `createNewVersion`,
    `deleteFileVersion`, `promoteVersion`, `getFileVersionPath`;
  * the Chunk Assembler (upload sessions, chunk temp files) — `GlobalState`
    and the route handlers `initiateUpload`, `receiveChunk`, `completeUpload`,
    `cancelUpload`, `uploadStatus`;
  * the Environment Registry (environment directories, shared-text files and
    cache, GC) — `EnvFS` with `cleanupEmptyEnvironment`,
    `cleanupAllEmptyEnvironments`, `writeSharedTextToFile`.

JavaScript `Map`s and directory listings are modelled as association lists with
insertion-order-preserving update (`mset`), file contents as `List Nat` byte
lists, ISO timestamps as natural numbers (the sort comparator only uses their
order), and thrown exceptions as `Except` results.  Each operation returns the
(possibly partially mutated) state together with its outcome, matching the
mutation order of the source.
-/

namespace RTClip

/-- JS `Map.get` / association-list lookup: value at the first matching key. -/
def mget [DecidableEq κ] : List (κ × α) → κ → Option α
  | [], _ => none
  | (k', v) :: rest, k => if k' = k then some v else mget rest k

/-- JS `Map.set`: replace the value at an existing key (keeping its position),
otherwise append the new binding. -/
def mset [DecidableEq κ] (m : List (κ × α)) (k : κ) (v : α) : List (κ × α) :=
  match m with
  | [] => [(k, v)]
  | (k', v') :: rest =>
    if k' = k then (k, v) :: rest else (k', v') :: mset rest k v

/-- JS `Map.delete` / `fs.unlinkSync`: drop the bindings for the key. -/
def mdel [DecidableEq κ] : List (κ × α) → κ → List (κ × α)
  | [], _ => []
  | (k', v) :: rest, k => if k' = k then mdel rest k else (k', v) :: mdel rest k

/-- Apply a function to the value stored at a key, if present. -/
def mapAt [DecidableEq κ] : List (κ × α) → κ → (α → α) → List (κ × α)
  | [], _, _ => []
  | (k', v) :: rest, k, f =>
    if k' = k then (k', f v) :: mapAt rest k f else (k', v) :: mapAt rest k f

/-! ## Content classifier (src/server.js lines 99-124) -/

/-- `path.extname`: the suffix of the name from its last dot, or the empty
string when the name has no dot or only a leading dot. -/
def extname (s : String) : String :=
  let cs := s.toList
  match (cs.reverse.takeWhile (fun c => c ≠ '.')).length with
  | n =>
    if n = cs.length then ""            -- no dot at all
    else if n + 1 = cs.length then ""   -- only a leading dot
    else String.mk (cs.drop (cs.length - n - 1))

/-- JS `String.prototype.trim`: strip leading and trailing whitespace. -/
def jsTrim (s : String) : String :=
  String.mk
    (((s.toList.dropWhile Char.isWhitespace).reverse.dropWhile
      Char.isWhitespace).reverse)

/-- JS `String.prototype.toLowerCase`, restricted to ASCII (the classifier
only compares against ASCII extension literals). -/
def lowerChar (c : Char) : Char :=
  if 'A' ≤ c ∧ c ≤ 'Z' then Char.ofNat (c.toNat + 32) else c

/-- Lowercase every character of the string. -/
def lowerStr (s : String) : String := String.mk (s.toList.map lowerChar)

/-- `isImageFile` from src/server.js: extension membership, lowercased. -/
def isImageFile (filename : String) : Bool :=
  let imageExtensions := [".jpg", ".jpeg", ".png", ".gif", ".webp", ".svg",
    ".bmp", ".ico", ".tiff", ".tif"]
  imageExtensions.contains (lowerStr (extname filename))

/-- `isTextFile` from src/server.js: extension membership plus the special
names readme and license, case-insensitively. -/
def isTextFile (filename : String) : Bool :=
  let textExtensions := [".txt", ".md", ".json", ".xml", ".csv", ".log",
    ".yaml", ".yml", ".js", ".ts", ".jsx", ".tsx", ".vue", ".svelte",
    ".html", ".htm", ".css", ".scss", ".sass", ".less",
    ".py", ".java", ".cpp", ".c", ".h", ".hpp", ".cs", ".php", ".rb", ".go",
    ".rs", ".swift", ".kt", ".sql", ".sh", ".bat", ".ps1", ".dockerfile",
    ".gitignore", ".env", ".conf", ".config", ".ini", ".properties", ".toml"]
  textExtensions.contains (lowerStr (extname filename))
    || lowerStr filename = "readme" || lowerStr filename = "license"

/-- `isPDFFile` from src/server.js. -/
def isPDFFile (filename : String) : Bool :=
  lowerStr (extname filename) = ".pdf"

/-! ## Version Store data model (src/server.js lines 341-523, 1945-2004)

One `FileStore` models the on-disk state owned by a single
(environment, originalFileName) pair: the live copy at
`uploads/<env>/<originalFileName>`, the archived blobs inside
`uploads/<env>/.versions/<originalFileName>/` keyed by their file name, and
the `metadata.json` document.  File contents are byte lists. -/

/-- A version record as stored in `metadata.json` (src/server.js 417-426). -/
structure VersionInfo where
  versionId : String
  fileName : String
  uploadedAt : Nat
  fileSize : Nat
  isImageFile : Bool
  isTextFile : Bool
  isPDFFile : Bool
deriving DecidableEq, Repr

/-- The metadata document (src/server.js 342-348). -/
structure Metadata where
  originalFileName : String
  versions : List VersionInfo
  currentVersion : Option VersionInfo
deriving DecidableEq, Repr

/-- `createFileMetadata` (src/server.js 342-348). -/
def createFileMetadata (originalFileName : String) : Metadata :=
  { originalFileName, versions := [], currentVersion := none }

/-- Stable insertion of a version into a list already sorted by `uploadedAt`
descending: the new element goes after every element with an equal-or-later
timestamp, which is exactly where a stable sort keeps it. -/
def insertDesc (x : VersionInfo) : List VersionInfo → List VersionInfo
  | [] => [x]
  | y :: ys => if x.uploadedAt ≤ y.uploadedAt then y :: insertDesc x ys
               else x :: y :: ys

/-- The stable sort `versions.sort((a, b) => new Date(b.uploadedAt) - new
Date(a.uploadedAt))` (src/server.js 353, 481): newest first, ties kept in
insertion order. -/
def sortVersionsDesc (l : List VersionInfo) : List VersionInfo :=
  l.foldl (fun acc x => insertDesc x acc) []

/-- `addVersionToMetadata` (src/server.js 350-356): push, re-sort newest
first, and recompute `currentVersion` as the head of the sorted list. -/
def addVersionToMetadata (metadata : Metadata) (versionInfo : VersionInfo) :
    Metadata :=
  let versions := sortVersionsDesc (metadata.versions ++ [versionInfo])
  { metadata with versions, currentVersion := versions.head? }

/-- The filesystem slice for one (environment, originalFileName) pair. -/
structure FileStore where
  liveFile : Option (List Nat)
  versionFiles : List (String × List Nat)
  metadataFile : Option Metadata
deriving DecidableEq, Repr

/-- The state before any upload for this name. -/
def emptyFileStore : FileStore :=
  { liveFile := none, versionFiles := [], metadataFile := none }

/-- A path computed by `getFileVersionPath`: either the live copy
`uploads/<env>/<originalFileName>` or an archived blob
`.versions/<originalFileName>/<fileName>`. -/
inductive VPath where
  | live
  | versioned (fileName : String)
deriving DecidableEq, Repr

/-- `fs.existsSync` / `fs.readFileSync` at a resolved path. -/
def readPath (st : FileStore) : VPath → Option (List Nat)
  | .live => st.liveFile
  | .versioned fn => mget st.versionFiles fn

/-- Write bytes at a resolved path (`fs.copyFileSync` destination). -/
def writePath (st : FileStore) (p : VPath) (b : List Nat) : FileStore :=
  match p with
  | .live => { st with liveFile := some b }
  | .versioned fn => { st with versionFiles := mset st.versionFiles fn b }

/-- `readFileMetadata` (src/server.js 358-369): the parsed document when the
file exists, else a fresh empty record (unparsable documents are also treated
as absent). -/
def readFileMetadata (originalFileName : String) (st : FileStore) : Metadata :=
  match st.metadataFile with
  | some m => m
  | none => createFileMetadata originalFileName

/-- `getFileVersionPath` (src/server.js 440-456): the live path for the
current version, the archived path otherwise, `none` for an unknown id. -/
def getFileVersionPath (originalFileName : String) (st : FileStore)
    (versionId : String) : Option VPath :=
  let metadata := readFileMetadata originalFileName st
  match metadata.versions.find? (fun v => v.versionId = versionId) with
  | none => none
  | some version =>
    if some version.versionId = metadata.currentVersion.map (·.versionId) then
      some .live
    else
      some (.versioned version.fileName)

/-- Version Store error taxonomy (spec section 7). -/
inductive VError where
  | notFound (msg : String)
  | ioFailure
deriving DecidableEq, Repr

/-- Result of `createNewVersion` (src/server.js 432). -/
structure CreateResult where
  versionInfo : VersionInfo
  metadata : Metadata
deriving DecidableEq, Repr

/-- The `VersionInfo` record `createNewVersion` builds (src/server.js
417-426) for a fresh id and timestamp. -/
def newVersionInfo (originalFileName versionId : String)
    (uploadedAt fileSize : Nat) : VersionInfo :=
  { versionId, fileName := versionId ++ extname originalFileName, uploadedAt,
    fileSize,
    isImageFile := isImageFile originalFileName,
    isTextFile := isTextFile originalFileName,
    isPDFFile := isPDFFile originalFileName }

/-- `createNewVersion` (src/server.js 386-433) with an injected failure point
`failStep`: step 0 is the `mkdirSync` of the versions directory, step 1 the
archive copy of the live file, step 2 the copy of the new source into the
live position, step 3 the metadata write (`writeFileMetadata`, 371-384, which
rethrows).  A failing step throws, leaving every earlier mutation in place,
exactly as the synchronous source does.  `versionId` and `uploadedAt` stand
for the freshly generated timestamp-plus-uuid id and `new Date()`. -/
def createNewVersionAt (failStep : Option Nat) (originalFileName : String)
    (versionId : String) (uploadedAt : Nat) (fileSize : Nat)
    (sourceBytes : List Nat) (st : FileStore) :
    FileStore × Except VError CreateResult :=
  if failStep = some 0 then (st, .error .ioFailure)
  else
    -- If a current version exists and the live copy is on disk, archive the
    -- live copy under the current versionId (unless that archive file
    -- already exists).
    match (readFileMetadata originalFileName st).currentVersion, st.liveFile with
    | some cv, some b =>
      if mget st.versionFiles (cv.versionId ++ extname originalFileName) = none
      then
        if failStep = some 1 then (st, .error .ioFailure)
        else
          createFinish failStep versionId
            (versionId ++ extname originalFileName) uploadedAt fileSize
            sourceBytes originalFileName (readFileMetadata originalFileName st)
            { st with versionFiles := mset st.versionFiles (cv.versionId ++ extname originalFileName) b }
      else
        createFinish failStep versionId (versionId ++ extname originalFileName)
          uploadedAt fileSize sourceBytes originalFileName
          (readFileMetadata originalFileName st) st
    | _, _ =>
      createFinish failStep versionId (versionId ++ extname originalFileName)
        uploadedAt fileSize sourceBytes originalFileName
        (readFileMetadata originalFileName st) st
where
  -- The tail of `createNewVersion` after the archive step: copy the source
  -- to the live position, build the `VersionInfo`, update and persist the
  -- metadata.
  createFinish (failStep : Option Nat) (versionId versionFileName : String)
      (uploadedAt fileSize : Nat) (sourceBytes : List Nat)
      (originalFileName : String) (metadata : Metadata) (st : FileStore) :
      FileStore × Except VError CreateResult :=
    if failStep = some 2 then (st, .error .ioFailure)
    else if failStep = some 3 then
      ({ st with liveFile := some sourceBytes }, .error .ioFailure)
    else
      let versionInfo : VersionInfo :=
        { versionId, fileName := versionFileName, uploadedAt, fileSize,
          isImageFile := isImageFile originalFileName,
          isTextFile := isTextFile originalFileName,
          isPDFFile := isPDFFile originalFileName }
      let metadata' := addVersionToMetadata metadata versionInfo
      ({ st with liveFile := some sourceBytes, metadataFile := some metadata' },
       .ok { versionInfo, metadata := metadata' })

/-- `createNewVersion` without injected failures. -/
def createNewVersion (originalFileName versionId : String)
    (uploadedAt fileSize : Nat) (sourceBytes : List Nat) (st : FileStore) :
    FileStore × Except VError CreateResult :=
  createNewVersionAt none originalFileName versionId uploadedAt fileSize
    sourceBytes st

/-- `deleteFileVersion` (src/server.js 458-523).  Returns the mutated store
and either the resulting metadata or the `Version not found` error thrown
before any mutation. -/
def deleteFileVersion (originalFileName : String) (versionId : String)
    (st : FileStore) : FileStore × Except VError Metadata :=
  let metadata := readFileMetadata originalFileName st
  match metadata.versions.findIdx? (fun v => v.versionId = versionId) with
  | none => (st, .error (.notFound "Version not found"))
  | some versionIndex =>
    match metadata.versions[versionIndex]? with
    | none => (st, .error (.notFound "Version not found"))
    | some version =>
      if some version.versionId = metadata.currentVersion.map (·.versionId) then
        -- Deleting the current version: remove the live copy, drop the entry,
        -- and promote the next most recent version if any remains.
        let st1 := { st with liveFile := none }
        let remaining := metadata.versions.eraseIdx versionIndex
        -- `remaining.length > 0` is decided here through the sorted list,
        -- which is empty exactly when `remaining` is.
        match sortVersionsDesc remaining with
        | [] =>
          let metadata' :=
            { metadata with versions := remaining, currentVersion := none }
          deleteFinish originalFileName metadata' st1
        | newCurrent :: restSorted =>
          let metadata' :=
            { metadata with versions := newCurrent :: restSorted,
                            currentVersion := some newCurrent }
          -- `getFileVersionPath` re-reads the on-disk metadata, which still
          -- holds the pre-delete document.
          let st2 :=
            match getFileVersionPath originalFileName st1 newCurrent.versionId with
            | some p =>
              match readPath st1 p with
              | some b => writePath st1 .live b
              | none => st1
            | none => st1
          deleteFinish originalFileName metadata' st2
      else
        -- Deleting an older version: remove its archived file and its entry.
        let st1 :=
          match getFileVersionPath originalFileName st versionId with
          | some (.versioned fn) =>
            { st with versionFiles := mdel st.versionFiles fn }
          | some .live => { st with liveFile := none }
          | none => st
        let metadata' :=
          { metadata with versions := metadata.versions.eraseIdx versionIndex }
        deleteFinish originalFileName metadata' st1
where
  -- The tail of `deleteFileVersion`: drop the metadata document when no
  -- version remains, else persist the updated document.
  deleteFinish (originalFileName : String) (metadata' : Metadata)
      (st : FileStore) : FileStore × Except VError Metadata :=
    if metadata'.versions = [] then
      ({ st with metadataFile := none }, .ok metadata')
    else
      ({ st with metadataFile := some metadata' }, .ok metadata')

/-- Result of the promote route. -/
inductive PromoteOutcome where
  | alreadyCurrent (currentVersion : VersionInfo)
  | promoted (currentVersion : VersionInfo)
deriving DecidableEq, Repr

/-- The promote route handler
the route PUT /:environment/files/:filename/versions/:versionId/promote
(src/server.js 1945-2004).  Looks up the version, returns success untouched
when it is already current, otherwise requires its resolved file to exist,
copies the current live file onto the path `getFileVersionPath` resolves for
the current version (which is the live path itself, so the copy is a
self-copy), copies the target version's file to the live position, sets
`currentVersion` to the target — without re-sorting — and persists. -/
def promoteVersion (originalFileName : String) (versionId : String)
    (st : FileStore) : FileStore × Except VError PromoteOutcome :=
  let metadata := readFileMetadata originalFileName st
  match metadata.versions.find? (fun v => v.versionId = versionId) with
  | none => (st, .error (.notFound "Version not found"))
  | some version =>
    if some version.versionId = metadata.currentVersion.map (·.versionId) then
      (st, .ok (.alreadyCurrent version))
    else
      match getFileVersionPath originalFileName st versionId with
      | none => (st, .error (.notFound "Version file not found"))
      | some versionPath =>
        match readPath st versionPath with
        | none => (st, .error (.notFound "Version file not found"))
        | some versionBytes =>
          -- Move current version to versions directory first.  The path is
          -- resolved through `getFileVersionPath`, which maps the current
          -- version's id back to the live path.
          let st1 :=
            match metadata.currentVersion, st.liveFile with
            | some cv, some liveBytes =>
              match getFileVersionPath originalFileName st cv.versionId with
              | some p => writePath st p liveBytes
              | none => st
            | _, _ => st
          let st2 := writePath st1 .live versionBytes
          let metadata' := { metadata with currentVersion := some version }
          ({ st2 with metadataFile := some metadata' }, .ok (.promoted version))

/-! ## Chunk Assembler (src/server.js 73-74, 1063-1474)

Upload sessions live in the in-memory `uploadSessions` map; chunk bytes are
buffered in temp files named `uploadId_chunk_index` (the pair is modelled as
a structured key, since the dash-free uuid and the literal infix make the
encoding injective).  `completeUpload` concatenates the chunks and feeds the
result to the Version Store, so the global state also carries the per-
(environment, fileName) `FileStore`s. -/

/-- A temp-file name: `uploadId_chunk_index` for buffered chunks
(src/server.js 1150) or `complete-uploadId-...` for the combined file
(src/server.js 1249). -/
inductive TempPath where
  | chunk (uploadId : String) (chunkIndex : Nat)
  | combined (uploadId : String)
deriving DecidableEq, Repr

/-- An upload session (src/server.js 1079-1088): `chunks` maps a chunk index
to the temp path it was buffered at, `status` is `some "canceled"` after the
cancel route ran. -/
structure UploadSession where
  fileName : String
  originalFileName : String
  fileSize : Nat
  totalChunks : Nat
  uploadedChunks : Nat
  chunks : List (Nat × TempPath)
  createdAt : Nat
  lastActivity : Option Nat
  status : Option String
  canceledAt : Option Nat
  environmentName : String
deriving DecidableEq, Repr

/-- The process-wide mutable state the chunked-upload routes touch. -/
structure GlobalState where
  uploadSessions : List (String × UploadSession)
  tempFiles : List (TempPath × List Nat)
  fileStores : List ((String × String) × FileStore)
deriving DecidableEq, Repr

/-- Route-level error taxonomy for the upload endpoints. -/
inductive UError where
  | invalidArgument
  | notFound
  | invalidState
  | ioFailure
deriving DecidableEq, Repr

/-- Response of the chunk route (src/server.js 1157-1161). -/
structure ChunkResp where
  uploadedChunks : Nat
  totalChunks : Nat
deriving DecidableEq, Repr

/-- Response of the status route (src/server.js 1416-1421); `progress` is
`uploadedChunks / totalChunks * 100` and is reported here by its two
components. -/
structure StatusResp where
  fileName : String
  uploadedChunks : Nat
  totalChunks : Nat
deriving DecidableEq, Repr

/-- Response of the complete route (src/server.js 1295-1300). -/
structure CompleteResp where
  fileName : String
  versionInfo : VersionInfo
  totalVersions : Nat
deriving DecidableEq, Repr

/-- the route POST /:environment/upload/initiate (src/server.js 1064-1091): reject a missing/falsy field, then register a fresh session.
The route sanitizes the environment path segment and the client file name
through the external `sanitize-filename` collaborator; `sanitizedEnv` and
`fileNameSanitized` are those already-sanitized strings, `fileNameRaw` the
client-supplied original. -/
def initiateUpload (sanitizedEnv fileNameRaw fileNameSanitized : String)
    (fileSize totalChunks : Nat) (uploadId : String) (now : Nat)
    (gs : GlobalState) : GlobalState × Except UError String :=
  if fileNameRaw = "" || fileSize = 0 || totalChunks = 0 then
    (gs, .error .invalidArgument)
  else
    let session : UploadSession :=
      { fileName := fileNameSanitized, originalFileName := fileNameRaw,
        fileSize, totalChunks, uploadedChunks := 0, chunks := [],
        createdAt := now, lastActivity := none, status := none,
        canceledAt := none, environmentName := sanitizedEnv }
    ({ gs with uploadSessions := mset gs.uploadSessions uploadId session },
     .ok uploadId)

/-- the route POST /:environment/upload/chunk (src/server.js 1120-1170): on the busboy finish event, reject a missing uploadId, 404 an
unknown session, write the chunk bytes to the temp file named by
(uploadId, chunkIndex) — overwriting any previous content — record the path
in the session's chunk map, increment `uploadedChunks` unconditionally, and
stamp `lastActivity`. -/
def receiveChunk (uploadId : String) (chunkIndex : Nat) (chunk : List Nat)
    (now : Nat) (gs : GlobalState) : GlobalState × Except UError ChunkResp :=
  if uploadId = "" then (gs, .error .invalidArgument)
  else
    match mget gs.uploadSessions uploadId with
    | none => (gs, .error .notFound)
    | some session =>
      let chunkPath := TempPath.chunk uploadId chunkIndex
      let tempFiles := mset gs.tempFiles chunkPath chunk
      let session' :=
        { session with
          chunks := mset session.chunks chunkIndex chunkPath,
          uploadedChunks := session.uploadedChunks + 1,
          lastActivity := some now }
      ({ gs with
         uploadSessions := mset gs.uploadSessions uploadId session',
         tempFiles },
       .ok { uploadedChunks := session'.uploadedChunks,
             totalChunks := session.totalChunks })

/-- the route DELETE /:environment/upload/cancel/:uploadId
(src/server.js 1441-1456): 404 an unknown session, otherwise only mark it
canceled with a timestamp — the session and its chunk files stay in place
for the reaper. -/
def cancelUpload (uploadId : String) (now : Nat) (gs : GlobalState) :
    GlobalState × Except UError Unit :=
  match mget gs.uploadSessions uploadId with
  | none => (gs, .error .notFound)
  | some session =>
    let session' :=
      { session with
        canceledAt := some now,
        status := some "canceled" }
    ({ gs with uploadSessions := mset gs.uploadSessions uploadId session' },
     .ok ())

/-- the route GET /:environment/upload/status/:uploadId (src/server.js
1408-1422): 404 an unknown session, otherwise report its progress. -/
def uploadStatus (uploadId : String) (gs : GlobalState) :
    Except UError StatusResp :=
  match mget gs.uploadSessions uploadId with
  | none => .error .notFound
  | some session =>
    .ok { fileName := session.originalFileName,
          uploadedChunks := session.uploadedChunks,
          totalChunks := session.totalChunks }

/-- One round of the chunk-reading loop: resolve the chunk index through the
session's chunk map and read the temp file, failing on a missing path or
file. -/
def readChunkList (tempFiles : List (TempPath × List Nat))
    (chunks : List (Nat × TempPath)) : List Nat → Option (List (List Nat))
  | [] => some []
  | i :: rest =>
    match (mget chunks i).bind (fun p => mget tempFiles p) with
    | none => none
    | some b =>
      match readChunkList tempFiles chunks rest with
      | none => none
      | some bs => some (b :: bs)

/-- The chunk-reading loop of the complete route (src/server.js 1254-1262):
look up the temp path of every index 0..totalChunks-1 in the session's chunk
map and read it, failing on the first missing path or file. -/
def collectChunks (tempFiles : List (TempPath × List Nat))
    (chunks : List (Nat × TempPath)) (totalChunks : Nat) :
    Option (List (List Nat)) :=
  readChunkList tempFiles chunks (List.range totalChunks)

/-- `Buffer.concat`: concatenation of the chunk byte lists. -/
def concatBytes (l : List (List Nat)) : List Nat :=
  l.foldr (fun a b => a ++ b) []

/-- Remove every temp file recorded in the session's chunk map
(src/server.js 1282-1287 and the catch block 1306-1310). -/
def deleteSessionChunks (tempFiles : List (TempPath × List Nat))
    (chunks : List (Nat × TempPath)) : List (TempPath × List Nat) :=
  chunks.foldl (fun acc p => mdel acc p.2) tempFiles

/-- the route POST /:environment/upload/complete (src/server.js
1225-1315): reject a missing uploadId, 404 an unknown session, refuse with
`Incomplete upload` unless `uploadedChunks` equals `totalChunks`, then read
and concatenate the chunks in index order (a missing chunk throws into the
catch block, which still deletes the chunk files and the session), write the
combined bytes to a temp file, hand it to `createNewVersion` under the
environment recorded in the session (falling back to the path parameter
`sanitizedEnv` only when the session carries no environment name), and clean
up the temp file, the chunk files, and the session.  `versionId` and
`uploadedAt` stand for the id and timestamp `createNewVersion` generates. -/
def completeUpload (sanitizedEnv uploadId versionId : String)
    (uploadedAt : Nat) (gs : GlobalState) :
    GlobalState × Except UError CompleteResp :=
  if uploadId = "" then (gs, .error .invalidArgument)
  else
    match mget gs.uploadSessions uploadId with
    | none => (gs, .error .notFound)
    | some session =>
      if session.uploadedChunks ≠ session.totalChunks then
        (gs, .error .invalidState)
      else
        match collectChunks gs.tempFiles session.chunks session.totalChunks with
        | none =>
          -- catch block: clean up the failed upload
          ({ gs with
             tempFiles := deleteSessionChunks gs.tempFiles session.chunks,
             uploadSessions := mdel gs.uploadSessions uploadId },
           .error .ioFailure)
        | some chunkData =>
          let combinedData := concatBytes chunkData
          let tempPath := TempPath.combined uploadId
          let gs1 := { gs with tempFiles := mset gs.tempFiles tempPath combinedData }
          let envUsed := if session.environmentName ≠ "" then
                           session.environmentName
                         else sanitizedEnv
          let storeKey := (envUsed, session.fileName)
          let store := (mget gs1.fileStores storeKey).getD emptyFileStore
          match createNewVersion session.fileName versionId uploadedAt
              combinedData.length combinedData store with
          | (store', .ok result) =>
            let gs2 :=
              { gs1 with
                fileStores := mset gs1.fileStores storeKey store',
                tempFiles :=
                  deleteSessionChunks (mdel gs1.tempFiles tempPath)
                    session.chunks,
                uploadSessions := mdel gs1.uploadSessions uploadId }
            (gs2, .ok { fileName := session.fileName,
                        versionInfo := result.versionInfo,
                        totalVersions := result.metadata.versions.length })
          | (store', .error _) =>
            -- catch block: clean up the failed upload
            ({ gs1 with
               fileStores := mset gs1.fileStores storeKey store',
               tempFiles := deleteSessionChunks gs1.tempFiles session.chunks,
               uploadSessions := mdel gs1.uploadSessions uploadId },
             .error .ioFailure)

/-! ## Environment Registry (src/server.js 126-326, 615-668, 2231-2267)

An environment's uploads directory `data/uploads/<env>` holds regular files
at top level plus the reserved `.versions` subdirectory, whose entries are
the per-file version folders.  `data/sharedText/<env>.txt` holds the
persisted text, and `sharedTextCache` the in-memory copy.  Directory and
file existence is membership in the respective association list. -/

/-- The contents of one environment's uploads directory. -/
structure EnvDir where
  /-- Names of the regular files at the top level of the directory. -/
  files : List String
  /-- Whether the reserved `.versions` subdirectory exists. -/
  versionsDirExists : Bool
  /-- Names of the per-file version folders inside `.versions`. -/
  versionFolders : List String
deriving DecidableEq, Repr

/-- `fs.readdirSync` on an environment directory: the top-level files plus
the `.versions` entry when that subdirectory exists. -/
def EnvDir.entries (d : EnvDir) : List String :=
  d.files ++ (if d.versionsDirExists then [".versions"] else [])

/-- The filesystem and cache state the Environment Registry owns. -/
structure EnvFS where
  /-- `data/uploads/<env>` directories, keyed by environment name. -/
  envDirs : List (String × EnvDir)
  /-- `data/sharedText/<env>.txt` files, keyed by environment name. -/
  textFiles : List (String × String)
  /-- The in-memory `sharedTextCache` map. -/
  sharedTextCache : List (String × String)
deriving DecidableEq, Repr

/-- `hasEnvironmentContent` (src/server.js 139-195): the directory holds a
regular file other than inside `.versions` (the entry named `.versions` is
skipped; the model's only subdirectory is `.versions`), or the text file or
the cached text is non-empty after trimming. -/
def hasEnvironmentContent (environmentName : String) (st : EnvFS) : Bool :=
  let hasFiles :=
    match mget st.envDirs environmentName with
    | some d => !d.files.isEmpty
    | none => false
  let hasText :=
    match mget st.textFiles environmentName with
    | some text => 0 < (jsTrim text).length
    | none => false
  let hasCachedText :=
    if hasText then false
    else
      match mget st.sharedTextCache environmentName with
      | some cachedText => 0 < (jsTrim cachedText).length
      | none => false
  hasFiles || hasText || hasCachedText

/-- The per-directory effect of `cleanupOrphanedVersionFolders`
(src/server.js 197-277): remove every version folder whose name matches
neither a top-level file nor an existing entry of the directory, then remove
the `.versions` directory itself when it became empty. -/
def cleanOrphansDir (d : EnvDir) : EnvDir :=
  if !d.versionsDirExists then d
  else
    let remaining := d.versionFolders.filter
      (fun folderName => d.files.contains folderName || folderName = ".versions")
    { d with versionFolders := remaining,
             versionsDirExists := !remaining.isEmpty }

/-- `cleanupOrphanedVersionFolders` on the registry state: a no-op when the
environment directory (and hence its `.versions` directory) is absent. -/
def cleanupOrphanedVersionFolders (environmentName : String) (st : EnvFS) :
    EnvFS :=
  { st with envDirs := mapAt st.envDirs environmentName cleanOrphansDir }

/-- `cleanupEmptyEnvironment` (src/server.js 280-326): always sweep orphaned
version folders first; never delete the default environment; otherwise, when
the environment has no content, remove its uploads directory if it is empty,
its text file if the text is blank, and its cache entry if the cached text
is blank. -/
def cleanupEmptyEnvironment (environmentName : String) (st : EnvFS) : EnvFS :=
  let st := cleanupOrphanedVersionFolders environmentName st
  if environmentName = "default" then st
  else if hasEnvironmentContent environmentName st then st
  else
    let st :=
      match mget st.envDirs environmentName with
      | some d =>
        if d.entries.isEmpty
        then { st with envDirs := mdel st.envDirs environmentName }
        else st
      | none => st
    let st :=
      match mget st.textFiles environmentName with
      | some text =>
        if (jsTrim text).length = 0
        then { st with textFiles := mdel st.textFiles environmentName }
        else st
      | none => st
    match mget st.sharedTextCache environmentName with
    | some cachedText =>
      if (jsTrim cachedText).length = 0
      then { st with sharedTextCache := mdel st.sharedTextCache environmentName }
      else st
    | none => st

/-- The periodic sweep `cleanupAllEmptyEnvironments` (src/server.js
2231-2265): over a snapshot of the uploads-root listing, orphan-sweep the
default environment and `cleanupEmptyEnvironment` every other one; then over
a snapshot of the text-file listing, `cleanupEmptyEnvironment` every
non-default environment. -/
def cleanupAllEmptyEnvironments (st : EnvFS) : EnvFS :=
  let envNames := st.envDirs.map (·.1)
  let st1 := envNames.foldl
    (fun acc env =>
      if env = "default" then cleanupOrphanedVersionFolders env acc
      else cleanupEmptyEnvironment env acc)
    st
  let textNames := st1.textFiles.map (·.1)
  textNames.foldl
    (fun acc envName =>
      if envName ≠ "default" then cleanupEmptyEnvironment envName acc
      else acc)
    st1

/-- `writeSharedTextToFile` (src/server.js 637-661): persist the text only
when it is non-blank after trimming; delete an existing file when it is
blank; always overwrite the cache with the full text.  (The delayed
`cleanupEmptyEnvironment` it schedules runs later and is modelled as the
separate operation above.) -/
def writeSharedTextToFile (environmentName text : String) (st : EnvFS) :
    EnvFS :=
  let st :=
    if 0 < (jsTrim text).length then
      { st with textFiles := mset st.textFiles environmentName text }
    else
      match mget st.textFiles environmentName with
      | some _ => { st with textFiles := mdel st.textFiles environmentName }
      | none => st
  { st with sharedTextCache := mset st.sharedTextCache environmentName text }
/-! ## Auxiliary definitions for the statements and proofs -/

/-- Whether an `Except` result is an error. -/
def exceptIsError : Except ε α → Bool
  | .error _ => true
  | .ok _ => false

/-- The error carried by an `Except` result, if any. -/
def errOf : Except ε α → Option ε
  | .error e => some e
  | .ok _ => none

/-- The specified `currentVersion` invariant (spec section 3): the current
version is a member of `versions` carrying the maximum `uploadedAt`, and it
is null exactly when `versions` is empty. -/
def currentIsMax (m : Metadata) : Prop :=
  match m.currentVersion with
  | none => m.versions = []
  | some cv => cv ∈ m.versions ∧ ∀ v ∈ m.versions, v.uploadedAt ≤ cv.uploadedAt

instance (m : Metadata) : Decidable (currentIsMax m) :=
  match h : m.currentVersion with
  | none => decidable_of_iff (m.versions = []) (by simp [currentIsMax, h])
  | some cv =>
    decidable_of_iff
      (cv ∈ m.versions ∧ ∀ v ∈ m.versions, v.uploadedAt ≤ cv.uploadedAt)
      (by simp [currentIsMax, h])

/-- Iterated `receiveChunk` for a fixed session, one call per listed index,
all carrying the bytes `B index`. -/
def receiveManyState (uid : String) (B : Nat → List Nat) (now : Nat)
    (order : List Nat) (gs : GlobalState) : GlobalState :=
  order.foldl (fun g i => (receiveChunk uid i (B i) now g).1) gs

/-- The ghost record of the source bytes every version was created from,
keyed by versionId. -/
def OrigBytes : Type := List (String × List Nat)

/-- States of one (environment, originalFileName) slice reachable from the
empty store through the Version Store operations, together with the ghost
`orig` map.  A `createNewVersion` step carries the two facts true of the
generated inputs: the versionId is fresh (ids embed a uuid) and the `new
Date()` timestamp is strictly later than every recorded one (ids embed a
millisecond timestamp and creations are serialized on the event loop). -/
inductive ReachVS (originalFileName : String) :
    FileStore → OrigBytes → Prop where
  | init : ReachVS originalFileName emptyFileStore []
  | create (st : FileStore) (orig : OrigBytes)
      (versionId : String) (uploadedAt fileSize : Nat) (sourceBytes : List Nat)
      (hre : ReachVS originalFileName st orig)
      (hfresh : mget orig versionId = none)
      (hfresh2 : ∀ v ∈ (readFileMetadata originalFileName st).versions,
        v.versionId ≠ versionId)
      (hclock : ∀ v ∈ (readFileMetadata originalFileName st).versions,
        v.uploadedAt < uploadedAt) :
      ReachVS originalFileName
        (createNewVersion originalFileName versionId uploadedAt fileSize
          sourceBytes st).1
        (mset orig versionId sourceBytes)
  | del (st : FileStore) (orig : OrigBytes) (versionId : String)
      (hre : ReachVS originalFileName st orig) :
      ReachVS originalFileName (deleteFileVersion originalFileName versionId st).1
        orig
  | promote (st : FileStore) (orig : OrigBytes) (versionId : String)
      (hre : ReachVS originalFileName st orig) :
      ReachVS originalFileName (promoteVersion originalFileName versionId st).1
        orig

/-- The inductive invariant of reachable Version Store states: metadata file
names follow the versionId-plus-extension scheme, every recorded id has its
creation bytes in the ghost map, ids are unique, the current version is
recorded, a present live file holds the current version's creation bytes,
and every archived blob holds the creation bytes of the id its name embeds. -/
structure VSInv (originalFileName : String) (st : FileStore)
    (orig : OrigBytes) : Prop where
  ext_eq : ∀ v ∈ (readFileMetadata originalFileName st).versions,
    v.fileName = v.versionId ++ extname originalFileName
  ids_ghost : ∀ v ∈ (readFileMetadata originalFileName st).versions,
    ∃ b, mget orig v.versionId = some b
  nodup : ((readFileMetadata originalFileName st).versions.map
    (·.versionId)).Nodup
  cur_mem : ∀ cv, (readFileMetadata originalFileName st).currentVersion = some cv →
    cv ∈ (readFileMetadata originalFileName st).versions
  live_inv : ∀ b, st.liveFile = some b →
    ∃ cv, (readFileMetadata originalFileName st).currentVersion = some cv ∧
      mget orig cv.versionId = some b
  arch_inv : ∀ fn b, mget st.versionFiles fn = some b →
    ∃ id, fn = id ++ extname originalFileName ∧ mget orig id = some b

/-! ## Concrete scenario states used by counterexamples and witnesses -/

/-- Version-store scenario: upload bytes [1] as v1 at time 0. -/
def scnStore1 : FileStore :=
  (createNewVersion "doc.txt" "v1" 0 1 [1] emptyFileStore).1

/-- Then upload bytes [2] as v2 at time 1. -/
def scnStore2 : FileStore :=
  (createNewVersion "doc.txt" "v2" 1 1 [2] scnStore1).1

/-- Then promote v1 back to current. -/
def scnStore3 : FileStore :=
  (promoteVersion "doc.txt" "v1" scnStore2).1

/-- The v1 record as created in the scenario. -/
def scnV1 : VersionInfo :=
  { versionId := "v1", fileName := "v1.txt", uploadedAt := 0, fileSize := 1,
    isImageFile := false, isTextFile := true, isPDFFile := false }

/-- The v2 record as created in the scenario. -/
def scnV2 : VersionInfo :=
  { versionId := "v2", fileName := "v2.txt", uploadedAt := 1, fileSize := 1,
    isImageFile := false, isTextFile := true, isPDFFile := false }

/-- The ghost creation-bytes map of the scenario. -/
def scnOrig : OrigBytes := mset (mset [] "v1" [1]) "v2" [2]

/-- Chunk-assembler scenario: a fresh two-chunk session for file a.bin in the
default environment. -/
def dupGs1 : GlobalState :=
  (initiateUpload "default" "a.bin" "a.bin" 10 2 "u1" 0
    { uploadSessions := [], tempFiles := [], fileStores := [] }).1

/-- Receive chunk index 0 with bytes [7]. -/
def dupGs2 : GlobalState := (receiveChunk "u1" 0 [7] 1 dupGs1).1

/-- Receive chunk index 0 again with bytes [8]. -/
def dupGs3 : GlobalState := (receiveChunk "u1" 0 [8] 2 dupGs2).1

/-- Receive the still-missing chunk index 1, after the duplicate: now every
index 0..1 has been received, but `uploadedChunks` is 3. -/
def dupGs4 : GlobalState := (receiveChunk "u1" 1 [9] 3 dupGs3).1

/-- The session record stored at u1 inside `dupGs2`. -/
def dupSess2 : UploadSession :=
  { fileName := "a.bin", originalFileName := "a.bin", fileSize := 10,
    totalChunks := 2, uploadedChunks := 1, chunks := [(0, .chunk "u1" 0)],
    createdAt := 0, lastActivity := some 1, status := none,
    canceledAt := none, environmentName := "default" }

/-- The same session after the cancel route marked it canceled at time 2. -/
def dupSess2c : UploadSession :=
  { dupSess2 with canceledAt := some 2, status := some "canceled" }

/-! ## Lemmas about the model, and the claim theorems -/

theorem mget_mset_self [DecidableEq κ] (m : List (κ × α)) (k : κ) (v : α) :
    mget (mset m k v) k = some v := by
  induction m with
  | nil => simp [mget, mset]
  | cons p rest ih =>
    obtain ⟨k', v'⟩ := p
    by_cases h : k' = k
    · simp [mset, h, mget]
    · simp [mset, h, mget, ih]

theorem mget_mset_ne [DecidableEq κ] (m : List (κ × α)) (k k' : κ) (v : α)
    (h : k ≠ k') : mget (mset m k v) k' = mget m k' := by
  induction m with
  | nil => simp [mget, mset, h]
  | cons p rest ih =>
    obtain ⟨k₀, v₀⟩ := p
    by_cases h0 : k₀ = k
    · subst h0
      simp [mset, mget, h]
    · by_cases h1 : k₀ = k'
      · have h2 : ¬ (k' = k) := fun hh => h hh.symm
        simp [mset, mget, h0, h1, h2]
      · simp [mset, mget, h0, h1, ih]

theorem mget_mdel_self [DecidableEq κ] (m : List (κ × α)) (k : κ) :
    mget (mdel m k) k = none := by
  induction m with
  | nil => simp [mget, mdel]
  | cons p rest ih =>
    obtain ⟨k₀, v₀⟩ := p
    by_cases h : k₀ = k
    · simpa [mdel, h] using ih
    · simp [mdel, mget, h, ih]

theorem mget_mdel_ne [DecidableEq κ] (m : List (κ × α)) (k k' : κ)
    (h : k ≠ k') : mget (mdel m k) k' = mget m k' := by
  induction m with
  | nil => simp [mget, mdel]
  | cons p rest ih =>
    obtain ⟨k₀, v₀⟩ := p
    by_cases h0 : k₀ = k
    · have h1 : ¬ (k₀ = k') := fun hh => h (h0 ▸ hh)
      simp [mdel, mget, h0, h1, h, ih]
    · by_cases h1 : k₀ = k'
      · have h2 : ¬ (k' = k) := fun hh => h hh.symm
        simp [mdel, mget, h0, h1, h2]
      · simp [mdel, mget, h0, h1, ih]

theorem mget_mapAt_self [DecidableEq κ] (m : List (κ × α)) (k : κ) (f : α → α) :
    mget (mapAt m k f) k = (mget m k).map f := by
  induction m with
  | nil => simp [mget, mapAt]
  | cons p rest ih =>
    obtain ⟨k₀, v₀⟩ := p
    by_cases h : k₀ = k
    · simp [mapAt, mget, h, ih]
    · simp [mapAt, mget, h, ih]

theorem mget_mapAt_ne [DecidableEq κ] (m : List (κ × α)) (k k' : κ) (f : α → α)
    (h : k ≠ k') : mget (mapAt m k f) k' = mget m k' := by
  induction m with
  | nil => simp [mget, mapAt]
  | cons p rest ih =>
    obtain ⟨k₀, v₀⟩ := p
    by_cases h0 : k₀ = k
    · have h1 : ¬ (k₀ = k') := fun hh => h (h0 ▸ hh)
      simp [mapAt, mget, h0, h1, h, ih]
    · by_cases h1 : k₀ = k'
      · have h2 : ¬ (k' = k) := fun hh => h hh.symm
        simp [mapAt, mget, h0, h1, h2]
      · simp [mapAt, mget, h0, h1, ih]

theorem insertDesc_length (x : VersionInfo) (l : List VersionInfo) :
    (insertDesc x l).length = l.length + 1 := by
  induction l with
  | nil => simp [insertDesc]
  | cons y ys ih =>
    by_cases h : x.uploadedAt ≤ y.uploadedAt
    · simp [insertDesc, h, ih]
    · simp [insertDesc, h]

theorem sortVersionsDesc_length (l : List VersionInfo) :
    (sortVersionsDesc l).length = l.length := by
  have aux : ∀ (l acc : List VersionInfo),
      (l.foldl (fun acc x => insertDesc x acc) acc).length
        = l.length + acc.length := by
    intro l
    induction l with
    | nil => intro acc; simp
    | cons x xs ih =>
      intro acc
      simp only [List.foldl, List.length_cons]
      rw [ih, insertDesc_length]
      omega
  simpa using aux l []

theorem sortVersionsDesc_eq_nil_iff (l : List VersionInfo) :
    sortVersionsDesc l = [] ↔ l = [] := by
  constructor
  · intro h
    have := sortVersionsDesc_length l
    rw [h] at this
    exact List.length_eq_zero.mp this.symm
  · intro h
    subst h
    rfl

theorem mem_insertDesc (a x : VersionInfo) (l : List VersionInfo) :
    a ∈ insertDesc x l ↔ a = x ∨ a ∈ l := by
  induction l with
  | nil => simp [insertDesc]
  | cons y ys ih =>
    by_cases h : x.uploadedAt ≤ y.uploadedAt
    · simp only [insertDesc, if_pos h, List.mem_cons, ih]
      tauto
    · simp only [insertDesc, if_neg h, List.mem_cons]

theorem mem_sortVersionsDesc (a : VersionInfo) (l : List VersionInfo) :
    a ∈ sortVersionsDesc l ↔ a ∈ l := by
  have aux : ∀ (l acc : List VersionInfo) (a : VersionInfo),
      a ∈ l.foldl (fun acc x => insertDesc x acc) acc ↔ a ∈ l ∨ a ∈ acc := by
    intro l
    induction l with
    | nil => intro acc a; simp
    | cons x xs ih =>
      intro acc a
      simp only [List.foldl]
      rw [ih]
      rw [mem_insertDesc]
      simp
      tauto
  have := aux l [] a
  simpa [sortVersionsDesc] using this

theorem insertDesc_pairwise (x : VersionInfo) (l : List VersionInfo)
    (h : l.Pairwise (fun a b => b.uploadedAt ≤ a.uploadedAt)) :
    (insertDesc x l).Pairwise (fun a b => b.uploadedAt ≤ a.uploadedAt) := by
  induction l with
  | nil => simp [insertDesc]
  | cons y ys ih =>
    rcases List.pairwise_cons.mp h with ⟨hy, hys⟩
    by_cases hle : x.uploadedAt ≤ y.uploadedAt
    · simp only [insertDesc, if_pos hle]
      refine List.pairwise_cons.mpr ⟨?_, ih hys⟩
      intro b hb
      rcases (mem_insertDesc b x ys).mp hb with rfl | hbys
      · exact hle
      · exact hy b hbys
    · simp only [insertDesc, if_neg hle]
      refine List.pairwise_cons.mpr ⟨?_, h⟩
      intro b hb
      rcases hb with _ | hb
      · omega
      · have := hy b (by assumption)
        omega

theorem sortVersionsDesc_pairwise (l : List VersionInfo) :
    (sortVersionsDesc l).Pairwise (fun a b => b.uploadedAt ≤ a.uploadedAt) := by
  have aux : ∀ (l acc : List VersionInfo),
      acc.Pairwise (fun a b => b.uploadedAt ≤ a.uploadedAt) →
      (l.foldl (fun acc x => insertDesc x acc) acc).Pairwise
        (fun a b => b.uploadedAt ≤ a.uploadedAt) := by
    intro l
    induction l with
    | nil => intro acc h; simpa using h
    | cons x xs ih =>
      intro acc h
      exact ih _ (insertDesc_pairwise x acc h)
  exact aux l [] (by simp)

theorem sortVersionsDesc_head_max (l : List VersionInfo) (h : VersionInfo)
    (hh : (sortVersionsDesc l).head? = some h) :
    ∀ v ∈ l, v.uploadedAt ≤ h.uploadedAt := by
  intro v hv
  have hmem : v ∈ sortVersionsDesc l := (mem_sortVersionsDesc v l).mpr hv
  have hp := sortVersionsDesc_pairwise l
  cases hsort : sortVersionsDesc l with
  | nil => rw [hsort] at hmem; cases hmem
  | cons a rest =>
    rw [hsort] at hh hp hmem
    simp only [List.head?_cons, Option.some.injEq] at hh
    subst hh
    rcases List.mem_cons.mp hmem with rfl | hrest
    · exact le_refl _
    · exact (List.pairwise_cons.mp hp).1 v hrest

theorem sortVersionsDesc_append_gt (l : List VersionInfo) (x : VersionInfo)
    (h : ∀ v ∈ l, v.uploadedAt < x.uploadedAt) :
    sortVersionsDesc (l ++ [x]) = x :: sortVersionsDesc l := by
  have step : sortVersionsDesc (l ++ [x]) = insertDesc x (sortVersionsDesc l) := by
    simp [sortVersionsDesc, List.foldl_append]
  rw [step]
  cases hsort : sortVersionsDesc l with
  | nil => simp [insertDesc]
  | cons a rest =>
    have ha : a ∈ l := (mem_sortVersionsDesc a l).mp (by rw [hsort]; simp)
    have : ¬ x.uploadedAt ≤ a.uploadedAt := by
      have := h a ha
      omega
    simp [insertDesc, this]


theorem mset_length_mem [DecidableEq κ] (m : List (κ × α)) (k : κ) (v w : α)
    (h : mget m k = some w) : (mset m k v).length = m.length := by
  induction m with
  | nil => simp [mget] at h
  | cons p rest ih =>
    obtain ⟨k₀, v₀⟩ := p
    by_cases h0 : k₀ = k
    · simp [mset, h0]
    · simp only [mget, if_neg h0] at h
      simp [mset, h0, ih h]

theorem string_ne_empty_iff_length_pos (s : String) : s ≠ "" ↔ 0 < s.length := by
  constructor
  · intro h
    cases s with
    | mk data =>
      cases data with
      | nil => exact absurd rfl h
      | cons c cs => simp [String.length]
  · intro h he
    subst he
    simp [String.length] at h

/-- The tail `createFinish` of `createNewVersion` never touches the metadata
file on an error path: the two injectable failures precede the metadata
write. -/
theorem createFinish_metadata (failStep : Option Nat)
    (versionId versionFileName : String) (uploadedAt fileSize : Nat)
    (sourceBytes : List Nat) (originalFileName : String) (metadata : Metadata)
    (st st' : FileStore) (e : VError)
    (h : createNewVersionAt.createFinish failStep versionId versionFileName
      uploadedAt fileSize sourceBytes originalFileName metadata st
        = (st', .error e)) :
    st'.metadataFile = st.metadataFile := by
  unfold createNewVersionAt.createFinish at h
  split at h
  · cases h
    rfl
  · split at h
    · cases h
      rfl
    · simp at h

/-! ### C2: duplicate chunk receipt -/

/-- C2, counterexample.  After initiating a two-chunk session and receiving
chunk index 0 twice, the session's `uploadedChunks` counter is 2 while only
one distinct chunk index (one chunk-map entry) was ever received, so
`uploadedChunks` does not equal the number of distinct indices; the second
receive did overwrite the temp file with the new bytes. -/
theorem c2_counterexample :
    (mget dupGs3.uploadSessions "u1").map (fun s => s.uploadedChunks) = some 2
  ∧ (mget dupGs3.uploadSessions "u1").map (fun s => s.chunks.length) = some 1
  ∧ mget dupGs3.tempFiles (.chunk "u1" 0) = some [8] := by
  decide

/-- C2, amended.  Re-receiving an already-received chunk index overwrites
that chunk's temp file and its chunk-map entry (the map does not grow), but
`uploadedChunks` is incremented on every receive, so after a duplicate it
counts receive events, not distinct indices. -/
theorem c2_theorem (uid : String) (idx : Nat) (bytes : List Nat) (now : Nat)
    (gs : GlobalState) (s : UploadSession) (p : TempPath)
    (hu : uid ≠ "") (hs : mget gs.uploadSessions uid = some s)
    (hdup : mget s.chunks idx = some p) :
    ∃ s',
      receiveChunk uid idx bytes now gs
        = ({ gs with
             uploadSessions := mset gs.uploadSessions uid s',
             tempFiles := mset gs.tempFiles (.chunk uid idx) bytes },
           .ok { uploadedChunks := s.uploadedChunks + 1,
                 totalChunks := s.totalChunks })
      ∧ s'.uploadedChunks = s.uploadedChunks + 1
      ∧ mget s'.chunks idx = some (.chunk uid idx)
      ∧ s'.chunks.length = s.chunks.length
      ∧ mget (mset gs.tempFiles (.chunk uid idx) bytes) (.chunk uid idx)
          = some bytes := by
  refine ⟨{ s with
      chunks := mset s.chunks idx (.chunk uid idx),
      uploadedChunks := s.uploadedChunks + 1,
      lastActivity := some now }, ?_, rfl, ?_, ?_, ?_⟩
  · simp [receiveChunk, hu, hs]
  · exact mget_mset_self s.chunks idx (.chunk uid idx)
  · exact mset_length_mem s.chunks idx (.chunk uid idx) p hdup
  · exact mget_mset_self gs.tempFiles (.chunk uid idx) bytes

/-- C2, witness: the amended theorem applied to the concrete duplicate
receive of chunk 0 in the scenario session. -/
theorem c2_witness :
    ∃ s',
      receiveChunk "u1" 0 [8] 2 dupGs2
        = ({ dupGs2 with
             uploadSessions := mset dupGs2.uploadSessions "u1" s',
             tempFiles := mset dupGs2.tempFiles (.chunk "u1" 0) [8] },
           .ok { uploadedChunks := dupSess2.uploadedChunks + 1,
                 totalChunks := dupSess2.totalChunks })
      ∧ s'.uploadedChunks = dupSess2.uploadedChunks + 1
      ∧ mget s'.chunks 0 = some (.chunk "u1" 0)
      ∧ s'.chunks.length = dupSess2.chunks.length
      ∧ mget (mset dupGs2.tempFiles (.chunk "u1" 0) [8]) (.chunk "u1" 0)
          = some [8] :=
  c2_theorem "u1" 0 [8] 2 dupGs2 dupSess2 (.chunk "u1" 0)
    (by decide) (by decide) (by decide)

/-! ### C10: canceled sessions still accept chunks and status queries -/

/-- C10.  A session that was marked canceled (status "canceled") but not yet
reaped still accepts `receiveChunk` — the chunk is stored, `uploadedChunks`
is incremented, `lastActivity` is stamped — and still answers the status
route, because both handlers only check that the session exists. -/
theorem c10_theorem (uid : String) (idx : Nat) (bytes : List Nat) (now : Nat)
    (gs : GlobalState) (s : UploadSession)
    (hu : uid ≠ "") (hs : mget gs.uploadSessions uid = some s)
    (hcanceled : s.status = some "canceled") :
    (∃ s',
      receiveChunk uid idx bytes now gs
        = ({ gs with
             uploadSessions := mset gs.uploadSessions uid s',
             tempFiles := mset gs.tempFiles (.chunk uid idx) bytes },
           .ok { uploadedChunks := s.uploadedChunks + 1,
                 totalChunks := s.totalChunks })
      ∧ s'.uploadedChunks = s.uploadedChunks + 1
      ∧ s'.lastActivity = some now
      ∧ s'.status = some "canceled"
      ∧ mget s'.chunks idx = some (.chunk uid idx)
      ∧ mget (mset gs.tempFiles (.chunk uid idx) bytes) (.chunk uid idx)
          = some bytes)
  ∧ uploadStatus uid gs
      = .ok { fileName := s.originalFileName,
              uploadedChunks := s.uploadedChunks,
              totalChunks := s.totalChunks } := by
  constructor
  · refine ⟨{ s with
        chunks := mset s.chunks idx (.chunk uid idx),
        uploadedChunks := s.uploadedChunks + 1,
        lastActivity := some now }, ?_, rfl, rfl, ?_, ?_, ?_⟩
    · simp [receiveChunk, hu, hs]
    · exact hcanceled
    · exact mget_mset_self s.chunks idx (.chunk uid idx)
    · exact mget_mset_self gs.tempFiles (.chunk uid idx) bytes
  · simp [uploadStatus, hs]

/-- C10, witness: cancel the scenario session, then receive a chunk and
query the status on the canceled-but-unreaped session. -/
theorem c10_witness :
    (∃ s',
      receiveChunk "u1" 1 [9] 3 (cancelUpload "u1" 2 dupGs2).1
        = ({ (cancelUpload "u1" 2 dupGs2).1 with
             uploadSessions :=
               mset (cancelUpload "u1" 2 dupGs2).1.uploadSessions "u1" s',
             tempFiles :=
               mset (cancelUpload "u1" 2 dupGs2).1.tempFiles
                 (.chunk "u1" 1) [9] },
           .ok { uploadedChunks := dupSess2c.uploadedChunks + 1,
                 totalChunks := dupSess2c.totalChunks })
      ∧ s'.uploadedChunks = dupSess2c.uploadedChunks + 1
      ∧ s'.lastActivity = some 3
      ∧ s'.status = some "canceled"
      ∧ mget s'.chunks 1 = some (.chunk "u1" 1)
      ∧ mget (mset (cancelUpload "u1" 2 dupGs2).1.tempFiles
            (.chunk "u1" 1) [9]) (.chunk "u1" 1)
          = some [9])
  ∧ uploadStatus "u1" (cancelUpload "u1" 2 dupGs2).1
      = .ok { fileName := dupSess2c.originalFileName,
              uploadedChunks := dupSess2c.uploadedChunks,
              totalChunks := dupSess2c.totalChunks } :=
  c10_theorem "u1" 1 [9] 3 (cancelUpload "u1" 2 dupGs2).1 dupSess2c
    (by decide) (by decide) (by decide)

/-! ### C8: setSharedText persistence -/

/-- C8, counterexample.  For the non-empty text consisting of one space,
`writeSharedTextToFile` does not persist it: the trim check fails, and an
existing text file is even deleted, contradicting the claim that every
non-empty text is persisted to disk. -/
theorem c8_counterexample :
    " " ≠ ""
  ∧ mget (writeSharedTextToFile "e" " "
      { envDirs := [], textFiles := [("e", "old")],
        sharedTextCache := [] }).textFiles "e" = none := by
  constructor
  · decide
  · rfl

/-- C8, amended.  `setSharedText` always overwrites the cache with the full
text; it persists the text to the environment's file only when the text is
non-blank after trimming whitespace; when the trimmed text is empty (empty
or whitespace-only input), any existing text file is deleted and no file
remains. -/
theorem c8_theorem (environmentName text : String) (st : EnvFS) :
    mget (writeSharedTextToFile environmentName text st).sharedTextCache
        environmentName = some text
  ∧ (jsTrim text ≠ "" →
      mget (writeSharedTextToFile environmentName text st).textFiles
        environmentName = some text)
  ∧ (jsTrim text = "" →
      mget (writeSharedTextToFile environmentName text st).textFiles
        environmentName = none) := by
  refine ⟨?_, ?_, ?_⟩
  · simp only [writeSharedTextToFile]
    exact mget_mset_self _ _ _
  · intro h
    have hlen : 0 < (jsTrim text).length :=
      (string_ne_empty_iff_length_pos (jsTrim text)).mp h
    simp only [writeSharedTextToFile, if_pos hlen]
    exact mget_mset_self _ _ _
  · intro h
    have hlen : ¬ 0 < (jsTrim text).length := by
      rw [h]
      decide
    simp only [writeSharedTextToFile, if_neg hlen]
    cases hf : mget st.textFiles environmentName with
    | none => simpa using hf
    | some old => simpa using mget_mdel_self st.textFiles environmentName

/-- C8, witness: a non-blank text is cached and persisted; then the empty
text deletes the file. -/
theorem c8_witness :
    (mget (writeSharedTextToFile "e" "hi"
        { envDirs := [], textFiles := [], sharedTextCache := [] }).sharedTextCache
        "e" = some "hi"
      ∧ (jsTrim "hi" ≠ "" →
          mget (writeSharedTextToFile "e" "hi"
            { envDirs := [], textFiles := [], sharedTextCache := [] }).textFiles
            "e" = some "hi")
      ∧ (jsTrim "hi" = "" →
          mget (writeSharedTextToFile "e" "hi"
            { envDirs := [], textFiles := [], sharedTextCache := [] }).textFiles
            "e" = none))
  ∧ jsTrim "hi" ≠ "" := by
  refine ⟨ c8_theorem "e" "hi" _, by decide⟩

/-! ### C3: failed createNewVersion leaves no partial metadata -/

/-- C3, counterexample.  Inject a failure at the metadata-write step of
`createNewVersion` on a store holding v1 with bytes [1]: the call errors and
persists no metadata, but the live copy has already been overwritten with
the new bytes [2], so the prior state is not left untouched. -/
theorem c3_counterexample :
    exceptIsError
      (createNewVersionAt (some 3) "doc.txt" "v2" 1 1 [2] scnStore1).2 = true
  ∧ (createNewVersionAt (some 3) "doc.txt" "v2" 1 1 [2] scnStore1).1.metadataFile
      = scnStore1.metadataFile
  ∧ scnStore1.liveFile = some [1]
  ∧ (createNewVersionAt (some 3) "doc.txt" "v2" 1 1 [2] scnStore1).1.liveFile
      = some [2] := by
  decide

/-- C3, amended.  Whenever `createNewVersion` fails — at any of its fallible
steps — the metadata on disk is unchanged (no partial metadata is
persisted); however the live copy may already have been overwritten with the
new bytes, and the archive step may already have added an archived copy of
the previously current version, because those writes precede the metadata
write. -/
theorem c3_theorem (failStep : Option Nat) (originalFileName versionId : String)
    (uploadedAt fileSize : Nat) (sourceBytes : List Nat) (st st' : FileStore)
    (e : VError)
    (h : createNewVersionAt failStep originalFileName versionId uploadedAt
      fileSize sourceBytes st = (st', .error e)) :
    st'.metadataFile = st.metadataFile := by
  unfold createNewVersionAt at h
  split at h
  · cases h
    rfl
  · split at h
    · split at h
      · split at h
        · cases h
          rfl
        · have h2 := createFinish_metadata _ _ _ _ _ _ _ _ _ _ _ h
          exact h2
      · have h2 := createFinish_metadata _ _ _ _ _ _ _ _ _ _ _ h
        exact h2
    · have h2 := createFinish_metadata _ _ _ _ _ _ _ _ _ _ _ h
      exact h2

/-- C3, witness: the amended theorem applied to the concrete failing call of
the counterexample. -/
theorem c3_witness :
    (createNewVersionAt (some 3) "doc.txt" "v2" 1 1 [2] scnStore1).1.metadataFile
      = scnStore1.metadataFile :=
  c3_theorem (some 3) "doc.txt" "v2" 1 1 [2] scnStore1
    (createNewVersionAt (some 3) "doc.txt" "v2" 1 1 [2] scnStore1).1 .ioFailure
    (by
      have hh : (createNewVersionAt (some 3) "doc.txt" "v2" 1 1 [2]
          scnStore1).2 = .error .ioFailure := by rfl
      exact Prod.ext rfl hh)

/-! ### Supporting lemmas for the Version Store theorems -/

theorem findIdx?_pred_at (p : α → Bool) : ∀ (l : List α) (i : Nat),
    l.findIdx? p = some i → ∀ x, l[i]? = some x → p x = true := by
  intro l
  induction l with
  | nil =>
    intro i h
    exact Option.noConfusion h
  | cons a as ih =>
    intro i h x hx
    rw [List.findIdx?_cons] at h
    by_cases hp : p a
    · rw [if_pos hp] at h
      cases h
      simp only [List.getElem?_cons_zero, Option.some.injEq] at hx
      subst hx
      exact hp
    · rw [if_neg hp, List.findIdx?_succ] at h
      cases hidx : as.findIdx? p with
      | none =>
        rw [hidx] at h
        exact Option.noConfusion h
      | some j =>
        rw [hidx] at h
        cases h
        exact ih j hidx x (by simpa using hx)

theorem map_eraseIdx (f : α → β) : ∀ (l : List α) (i : Nat),
    (l.eraseIdx i).map f = (l.map f).eraseIdx i := by
  intro l
  induction l with
  | nil => intro i; simp
  | cons a as ih =>
    intro i
    cases i with
    | zero => simp
    | succ j => simp [ih j]

theorem nodup_getElem_not_mem_eraseIdx :
    ∀ (l : List α) (i : Nat) (a : α), l.Nodup → l[i]? = some a →
      a ∉ l.eraseIdx i := by
  intro l
  induction l with
  | nil =>
    intro i a _ h
    simp at h
  | cons x xs ih =>
    intro i a hnd h
    cases i with
    | zero =>
      simp only [List.getElem?_cons_zero, Option.some.injEq] at h
      subst h
      simpa using (List.nodup_cons.mp hnd).1
    | succ j =>
      simp only [List.getElem?_cons_succ] at h
      intro hmem
      rcases List.mem_cons.mp (by simpa [List.eraseIdx] using hmem) with rfl | hmem'
      · exact (List.nodup_cons.mp hnd).1 (List.getElem?_mem h)
      · exact ih j a (List.nodup_cons.mp hnd).2 h hmem'

theorem mem_eraseIdx_of_ne :
    ∀ (l : List α) (i : Nat) (a b : α), l[i]? = some b → a ∈ l → a ≠ b →
      a ∈ l.eraseIdx i := by
  intro l
  induction l with
  | nil =>
    intro i a b h
    simp at h
  | cons x xs ih =>
    intro i a b h hmem hne
    cases i with
    | zero =>
      simp only [List.getElem?_cons_zero, Option.some.injEq] at h
      subst h
      rcases List.mem_cons.mp hmem with rfl | hmem'
      · exact absurd rfl hne
      · simpa using hmem'
    | succ j =>
      simp only [List.getElem?_cons_succ] at h
      rcases List.mem_cons.mp hmem with rfl | hmem'
      · simp [List.eraseIdx]
      · simpa [List.eraseIdx] using Or.inr (ih j a b h hmem' hne)

/-- Full characterization of a (failure-free) `createNewVersion` call: the
live copy holds the new bytes, the metadata is the re-sorted extension of the
previous document, and the version directory either is untouched or gained
the archived copy of the previous live file. -/
theorem createNewVersion_spec (name vid : String) (t sz : Nat)
    (src : List Nat) (st : FileStore) :
    ∃ vf,
      createNewVersion name vid t sz src st
        = ({ liveFile := some src, versionFiles := vf,
             metadataFile := some (addVersionToMetadata
               (readFileMetadata name st) (newVersionInfo name vid t sz)) },
           .ok { versionInfo := newVersionInfo name vid t sz,
                 metadata := addVersionToMetadata (readFileMetadata name st)
                   (newVersionInfo name vid t sz) })
      ∧ (vf = st.versionFiles
         ∨ ∃ cv b, (readFileMetadata name st).currentVersion = some cv
             ∧ st.liveFile = some b
             ∧ mget st.versionFiles (cv.versionId ++ extname name) = none
             ∧ vf = mset st.versionFiles (cv.versionId ++ extname name) b) := by
  unfold createNewVersion createNewVersionAt
  rw [if_neg (by simp : ¬ (none : Option Nat) = some 0)]
  rcases hcv : (readFileMetadata name st).currentVersion with _ | cv
  · refine ⟨st.versionFiles, ?_, Or.inl rfl⟩
    unfold createNewVersionAt.createFinish
    rw [if_neg (by simp : ¬ (none : Option Nat) = some 2),
        if_neg (by simp : ¬ (none : Option Nat) = some 3)]
    rfl
  · rcases hlv : st.liveFile with _ | b
    · refine ⟨st.versionFiles, ?_, Or.inl rfl⟩
      unfold createNewVersionAt.createFinish
      rw [if_neg (by simp : ¬ (none : Option Nat) = some 2),
          if_neg (by simp : ¬ (none : Option Nat) = some 3)]
      rfl
    · by_cases harch : mget st.versionFiles (cv.versionId ++ extname name) = none
      · refine ⟨mset st.versionFiles (cv.versionId ++ extname name) b, ?_,
          Or.inr ⟨cv, b, rfl, rfl, harch, rfl⟩⟩
        dsimp only
        rw [if_pos harch,
            if_neg (by simp : ¬ (none : Option Nat) = some 1)]
        unfold createNewVersionAt.createFinish
        rw [if_neg (by simp : ¬ (none : Option Nat) = some 2),
            if_neg (by simp : ¬ (none : Option Nat) = some 3)]
        rfl
      · refine ⟨st.versionFiles, ?_, Or.inl rfl⟩
        dsimp only
        rw [if_neg harch]
        unfold createNewVersionAt.createFinish
        rw [if_neg (by simp : ¬ (none : Option Nat) = some 2),
            if_neg (by simp : ¬ (none : Option Nat) = some 3)]
        rfl

/-- `addVersionToMetadata` restores the `currentVersion` invariant by
construction: the head of the descending sort is a maximal member. -/
theorem currentIsMax_addVersion (m : Metadata) (vi : VersionInfo) :
    currentIsMax (addVersionToMetadata m vi) := by
  have hne : sortVersionsDesc (m.versions ++ [vi]) ≠ [] := by
    intro h
    have h2 := (sortVersionsDesc_eq_nil_iff (m.versions ++ [vi])).mp h
    simp at h2
  unfold currentIsMax addVersionToMetadata
  cases hsort : sortVersionsDesc (m.versions ++ [vi]) with
  | nil => exact absurd hsort hne
  | cons hd rest =>
    simp only [List.head?_cons]
    constructor
    · exact List.mem_cons_self hd rest
    · intro v hv
      have hv' : v ∈ m.versions ++ [vi] := by
        rw [← mem_sortVersionsDesc, hsort]
        exact hv
      exact sortVersionsDesc_head_max (m.versions ++ [vi]) hd
        (by rw [hsort]; rfl) v hv'

theorem currentIsMax_empty (name : String) :
    currentIsMax (createFileMetadata name) := rfl

/-- Removing a non-current version keeps the `currentVersion` invariant. -/
theorem currentIsMax_erase_noncur (md : Metadata) (i : Nat)
    (version : VersionInfo) (hver : md.versions[i]? = some version)
    (hmax : currentIsMax md)
    (hne : md.currentVersion.map (·.versionId) ≠ some version.versionId) :
    currentIsMax { md with versions := md.versions.eraseIdx i } := by
  rcases hcv : md.currentVersion with _ | cv
  · have hempty : md.versions = [] := by
      simpa [currentIsMax, hcv] using hmax
    rw [hempty] at hver
    simp at hver
  · have hm := hmax
    simp only [currentIsMax, hcv] at hm
    obtain ⟨hmem, hbound⟩ := hm
    have hcvne : cv ≠ version := by
      intro hEq
      apply hne
      rw [hcv, hEq]
      rfl
    unfold currentIsMax
    exact ⟨mem_eraseIdx_of_ne _ _ _ _ hver hmem hcvne,
      fun v hv => hbound v (List.mem_of_mem_eraseIdx hv)⟩

/-- After re-sorting, the head of the sorted remainder is a maximal member,
so installing it as `currentVersion` restores the invariant. -/
theorem currentIsMax_sorted_cons (md : Metadata) (l : List VersionInfo)
    (newCurrent : VersionInfo) (restSorted : List VersionInfo)
    (hsort : sortVersionsDesc l = newCurrent :: restSorted) :
    currentIsMax { md with
      versions := newCurrent :: restSorted,
      currentVersion := some newCurrent } := by
  unfold currentIsMax
  refine ⟨List.mem_cons_self _ _, ?_⟩
  intro v hv
  have hv' : v ∈ l := (mem_sortVersionsDesc v l).mp (by rw [hsort]; exact hv)
  exact sortVersionsDesc_head_max l newCurrent (by rw [hsort]; rfl) v hv'

/-! ### C1: the currentVersion invariant -/

/-- C1, counterexample.  In the reachable state `scnStore3` — v1 uploaded at
time 0, v2 at time 1, then v1 promoted — `currentVersion` is v1 while v2,
with the strictly larger timestamp, is still in `versions`: after the
promote operation `currentVersion` is not the maximum-timestamp version. -/
theorem c1_counterexample :
    ¬ currentIsMax (readFileMetadata "doc.txt" scnStore3) := by
  decide

/-- C1, amended.  After `createNewVersion` the invariant — `currentVersion`
is a maximum-`uploadedAt` member of `versions` and is null exactly when
`versions` is empty — holds unconditionally, and `deleteFileVersion`
preserves it; but `promoteVersion` installs the promoted version itself as
`currentVersion`, without re-sorting, so after promoting an older version
the invariant need not hold. -/
theorem c1_theorem :
    (∀ (name vid : String) (t sz : Nat) (src : List Nat) (st : FileStore),
      currentIsMax (readFileMetadata name
        (createNewVersion name vid t sz src st).1))
  ∧ (∀ (name vid : String) (st : FileStore),
      currentIsMax (readFileMetadata name st) →
      currentIsMax (readFileMetadata name (deleteFileVersion name vid st).1))
  ∧ (∀ (name vid : String) (st st' : FileStore) (v : VersionInfo),
      promoteVersion name vid st = (st', .ok (.promoted v)) →
      (readFileMetadata name st').currentVersion = some v) := by
  refine ⟨?_, ?_, ?_⟩
  · intro name vid t sz src st
    obtain ⟨vf, heq, _⟩ := createNewVersion_spec name vid t sz src st
    rw [heq]
    exact currentIsMax_addVersion (readFileMetadata name st)
      (newVersionInfo name vid t sz)
  · intro name vid st hmax
    unfold deleteFileVersion
    dsimp only
    rcases hidx : (readFileMetadata name st).versions.findIdx?
        (fun v => v.versionId = vid) with _ | versionIndex
    · simp only [hidx]
      exact hmax
    · simp only [hidx]
      rcases hver : (readFileMetadata name st).versions[versionIndex]?
        with _ | version
      · simp only [hver]
        exact hmax
      · simp only [hver]
        by_cases hcur : some version.versionId
            = (readFileMetadata name st).currentVersion.map (·.versionId)
        · rw [if_pos hcur]
          rcases hsort : sortVersionsDesc
              ((readFileMetadata name st).versions.eraseIdx versionIndex)
            with _ | ⟨newCurrent, restSorted⟩
          · simp only [hsort]
            have hrem : (readFileMetadata name st).versions.eraseIdx
                versionIndex = [] :=
              (sortVersionsDesc_eq_nil_iff _).mp hsort
            unfold deleteFileVersion.deleteFinish
            rw [if_pos hrem]
            exact currentIsMax_empty name
          · simp only [hsort]
            unfold deleteFileVersion.deleteFinish
            rw [if_neg (by simp : ¬ (newCurrent :: restSorted = []))]
            exact currentIsMax_sorted_cons (readFileMetadata name st) _
              newCurrent restSorted hsort
        · rw [if_neg hcur]
          unfold deleteFileVersion.deleteFinish
          split
          · exact currentIsMax_empty name
          · exact currentIsMax_erase_noncur (readFileMetadata name st)
              versionIndex version hver hmax (fun hh => hcur hh.symm)
  · intro name vid st st' v h
    unfold promoteVersion at h
    dsimp only at h
    rcases hfind : (readFileMetadata name st).versions.find?
        (fun v => v.versionId = vid) with _ | version
    · simp only [hfind] at h
      simp at h
    · simp only [hfind] at h
      split at h
      · simp at h
      · rcases hpath : getFileVersionPath name st vid with _ | versionPath
        · simp only [hpath] at h
          simp at h
        · simp only [hpath] at h
          rcases hbytes : readPath st versionPath with _ | versionBytes
          · simp only [hbytes] at h
            simp at h
          · simp only [hbytes] at h
            injection h with h1 h2
            injection h2 with h3
            injection h3 with h4
            subst h4
            rw [← h1]
            rfl

/-- C1, witness: deleting version v2 from the two-version scenario store
preserves the invariant; the precondition holds there by evaluation. -/
theorem c1_witness :
    currentIsMax (readFileMetadata "doc.txt"
      (deleteFileVersion "doc.txt" "v2" scnStore2).1) :=
  c1_theorem.2.1 "doc.txt" "v2" scnStore2 (by decide)

/-! ### C6: deleting a version twice -/

/-- After a successful delete of `vid`, no remaining version carries `vid`
(versionIds are unique in the document). -/
theorem deleteFileVersion_ok_no_vid (name vid : String) (st st1 : FileStore)
    (m : Metadata)
    (hnodup : ((readFileMetadata name st).versions.map (·.versionId)).Nodup)
    (hdel : deleteFileVersion name vid st = (st1, .ok m)) :
    ∀ v ∈ (readFileMetadata name st1).versions, v.versionId ≠ vid := by
  unfold deleteFileVersion at hdel
  dsimp only at hdel
  rcases hidx : (readFileMetadata name st).versions.findIdx?
      (fun v => v.versionId = vid) with _ | versionIndex
  all_goals simp only [hidx] at hdel
  · simp at hdel
  · rcases hver : (readFileMetadata name st).versions[versionIndex]?
      with _ | version
    all_goals simp only [hver] at hdel
    · simp at hdel
    · have hvid : version.versionId = vid := by
        have := findIdx?_pred_at (fun v => v.versionId = vid)
          (readFileMetadata name st).versions versionIndex hidx version hver
        simpa using this
      have herase : ∀ v ∈ (readFileMetadata name st).versions.eraseIdx
          versionIndex, v.versionId ≠ vid := by
        intro v hv hEq
        have hmapmem : v.versionId ∈ ((readFileMetadata name st).versions.eraseIdx
            versionIndex).map (·.versionId) := List.mem_map_of_mem _ hv
        rw [map_eraseIdx] at hmapmem
        have hgetmap : ((readFileMetadata name st).versions.map
            (·.versionId))[versionIndex]? = some vid := by
          rw [List.getElem?_map, hver]
          simp [hvid]
        have := nodup_getElem_not_mem_eraseIdx _ versionIndex vid hnodup hgetmap
        rw [hEq] at hmapmem
        exact this hmapmem
      by_cases hcur : some version.versionId
          = (readFileMetadata name st).currentVersion.map (·.versionId)
      · rw [if_pos hcur] at hdel
        rcases hsort : sortVersionsDesc
            ((readFileMetadata name st).versions.eraseIdx versionIndex)
          with _ | ⟨newCurrent, restSorted⟩
        all_goals simp only [hsort] at hdel
        · unfold deleteFileVersion.deleteFinish at hdel
          have hrem : (readFileMetadata name st).versions.eraseIdx
              versionIndex = [] :=
            (sortVersionsDesc_eq_nil_iff _).mp hsort
          rw [if_pos hrem] at hdel
          cases hdel
          intro v hv
          simp [readFileMetadata, createFileMetadata] at hv
        · unfold deleteFileVersion.deleteFinish at hdel
          rw [if_neg (by simp : ¬ (newCurrent :: restSorted = []))] at hdel
          cases hdel
          intro v hv
          have hv' : v ∈ (readFileMetadata name st).versions.eraseIdx
              versionIndex := by
            rw [← mem_sortVersionsDesc, hsort]
            exact hv
          exact herase v hv'
      · rw [if_neg hcur] at hdel
        unfold deleteFileVersion.deleteFinish at hdel
        split at hdel
        · cases hdel
          intro v hv
          simp [readFileMetadata, createFileMetadata] at hv
        · cases hdel
          intro v hv
          exact herase v hv

/-- C6.  If versionIds are unique — as they are for generated ids — then
after a successful `deleteFileVersion` of `vid`, calling it again with the
same `vid` throws `Version not found` before any mutation: the second call
returns the state it was given, unchanged. -/
theorem c6_theorem (name vid : String) (st st1 : FileStore) (m : Metadata)
    (hnodup : ((readFileMetadata name st).versions.map (·.versionId)).Nodup)
    (hdel : deleteFileVersion name vid st = (st1, .ok m)) :
    deleteFileVersion name vid st1
      = (st1, .error (.notFound "Version not found")) := by
  have hno := deleteFileVersion_ok_no_vid name vid st st1 m hnodup hdel
  have hidx : (readFileMetadata name st1).versions.findIdx?
      (fun v => v.versionId = vid) = none := by
    rw [List.findIdx?_eq_none_iff]
    intro x hx
    simpa using hno x hx
  unfold deleteFileVersion
  dsimp only
  rw [hidx]

/-- C6, witness: delete v1 from the two-version scenario store, then delete
it again; the second call reports `Version not found` and leaves the store
unchanged. -/
theorem c6_witness :
    deleteFileVersion "doc.txt" "v1"
      (deleteFileVersion "doc.txt" "v1" scnStore2).1
      = ((deleteFileVersion "doc.txt" "v1" scnStore2).1,
         .error (.notFound "Version not found")) :=
  c6_theorem "doc.txt" "v1" scnStore2
    (deleteFileVersion "doc.txt" "v1" scnStore2).1
    { originalFileName := "doc.txt", versions := [scnV2],
      currentVersion := some scnV2 }
    (by decide)
    (Prod.ext rfl (by rfl))

/-! ### C7: the default environment survives every GC pass -/

theorem mget_none_of_not_mem_keys [DecidableEq κ] (m : List (κ × α)) (k : κ)
    (h : k ∉ m.map (·.1)) : mget m k = none := by
  induction m with
  | nil => rfl
  | cons p rest ih =>
    obtain ⟨k₀, v₀⟩ := p
    have h1 : ¬ (k₀ = k) := by
      intro hh
      exact h (by simp [hh])
    have h2 : k ∉ rest.map (·.1) := by
      intro hh
      exact h (by simp [hh])
    simp [mget, h1, ih h2]

/-- Orphan cleanup rewrites exactly the targeted environment's directory. -/
theorem cleanupOrphaned_mget_self (e : String) (st : EnvFS) :
    mget (cleanupOrphanedVersionFolders e st).envDirs e
      = (mget st.envDirs e).map cleanOrphansDir :=
  mget_mapAt_self st.envDirs e cleanOrphansDir

/-- `cleanupEmptyEnvironment` only touches the directory entry of the
environment it is called for. -/
theorem cleanupEmpty_envDirs_ne (e k : String) (st : EnvFS) (h : e ≠ k) :
    mget (cleanupEmptyEnvironment e st).envDirs k = mget st.envDirs k := by
  unfold cleanupEmptyEnvironment cleanupOrphanedVersionFolders
  dsimp only
  repeat' split
  all_goals simp [mget_mapAt_ne, mget_mdel_ne, h]

/-- `cleanupEmptyEnvironment` only touches the text file of the environment
it is called for. -/
theorem cleanupEmpty_textFiles_ne (e k : String) (st : EnvFS) (h : e ≠ k) :
    mget (cleanupEmptyEnvironment e st).textFiles k = mget st.textFiles k := by
  unfold cleanupEmptyEnvironment cleanupOrphanedVersionFolders
  dsimp only
  repeat' split
  all_goals simp [mget_mdel_ne, h]

/-- The first sweep loop leaves the default environment's entries unchanged
as long as the name list avoids it. -/
theorem foldl_cleanup_not_default (names : List String) :
    ∀ (st : EnvFS), "default" ∉ names →
      mget ((names.foldl (fun acc env =>
          if env = "default" then cleanupOrphanedVersionFolders env acc
          else cleanupEmptyEnvironment env acc) st)).envDirs "default"
        = mget st.envDirs "default"
      ∧ mget ((names.foldl (fun acc env =>
          if env = "default" then cleanupOrphanedVersionFolders env acc
          else cleanupEmptyEnvironment env acc) st)).textFiles "default"
        = mget st.textFiles "default" := by
  induction names with
  | nil =>
    intro st _
    exact ⟨rfl, rfl⟩
  | cons n rest ih =>
    intro st h
    have hn : n ≠ "default" := fun hh => h (hh ▸ List.mem_cons_self n rest)
    have hrest : "default" ∉ rest := fun hh => h (List.mem_cons_of_mem n hh)
    simp only [List.foldl_cons, if_neg hn]
    obtain ⟨h1, h2⟩ := ih (cleanupEmptyEnvironment n st) hrest
    exact ⟨h1.trans (cleanupEmpty_envDirs_ne n "default" st hn),
      h2.trans (cleanupEmpty_textFiles_ne n "default" st hn)⟩

/-- The first sweep loop, run over a name list containing the default
environment exactly once, orphan-sweeps the default directory and leaves its
text file alone. -/
theorem foldl_cleanup_one_default (l1 l2 : List String)
    (h1 : "default" ∉ l1) (h2 : "default" ∉ l2) (st : EnvFS) :
    mget (((l1 ++ "default" :: l2).foldl (fun acc env =>
        if env = "default" then cleanupOrphanedVersionFolders env acc
        else cleanupEmptyEnvironment env acc) st)).envDirs "default"
      = (mget st.envDirs "default").map cleanOrphansDir
    ∧ mget (((l1 ++ "default" :: l2).foldl (fun acc env =>
        if env = "default" then cleanupOrphanedVersionFolders env acc
        else cleanupEmptyEnvironment env acc) st)).textFiles "default"
      = mget st.textFiles "default" := by
  rw [List.foldl_append, List.foldl_cons]
  simp only [reduceIte]
  obtain ⟨m1, m2⟩ := foldl_cleanup_not_default l1 st h1
  obtain ⟨f1, f2⟩ := foldl_cleanup_not_default l2
    (cleanupOrphanedVersionFolders "default" (l1.foldl (fun acc env =>
      if env = "default" then cleanupOrphanedVersionFolders env acc
      else cleanupEmptyEnvironment env acc) st)) h2
  constructor
  · rw [f1, cleanupOrphaned_mget_self, m1]
  · rw [f2]
    exact m2

/-- The second sweep loop (over text-file names) never touches the default
environment. -/
theorem foldl_cleanup_text (names : List String) :
    ∀ (st : EnvFS),
      mget ((names.foldl (fun acc envName =>
          if envName ≠ "default" then cleanupEmptyEnvironment envName acc
          else acc) st)).envDirs "default" = mget st.envDirs "default"
      ∧ mget ((names.foldl (fun acc envName =>
          if envName ≠ "default" then cleanupEmptyEnvironment envName acc
          else acc) st)).textFiles "default" = mget st.textFiles "default" := by
  induction names with
  | nil =>
    intro st
    exact ⟨rfl, rfl⟩
  | cons n rest ih =>
    intro st
    by_cases hn : n ≠ "default"
    · simp only [List.foldl_cons, if_pos hn]
      obtain ⟨h1, h2⟩ := ih (cleanupEmptyEnvironment n st)
      exact ⟨h1.trans (cleanupEmpty_envDirs_ne n "default" st hn),
        h2.trans (cleanupEmpty_textFiles_ne n "default" st hn)⟩
    · simp only [List.foldl_cons, if_neg hn]
      exact ih st

/-- C7.  Neither a `cleanupEmptyEnvironment` invocation on the default
environment nor a full GC pass (`cleanupAllEmptyEnvironments`, with the
uploads root containing each environment directory once) deletes the
default environment's uploads directory or text file: both survive exactly
as they were — even when the environment has no content — except that the
default directory's orphaned version folders (those matching no live file)
are still removed. -/
theorem c7_theorem (st : EnvFS) (hnd : (st.envDirs.map (·.1)).Nodup) :
    (mget (cleanupEmptyEnvironment "default" st).envDirs "default"
        = (mget st.envDirs "default").map cleanOrphansDir
      ∧ mget (cleanupEmptyEnvironment "default" st).textFiles "default"
        = mget st.textFiles "default")
  ∧ (mget (cleanupAllEmptyEnvironments st).envDirs "default"
        = (mget st.envDirs "default").map cleanOrphansDir
      ∧ mget (cleanupAllEmptyEnvironments st).textFiles "default"
        = mget st.textFiles "default")
  ∧ (∀ d : EnvDir, d.versionsDirExists = true →
      (cleanOrphansDir d).versionFolders
        = d.versionFolders.filter
            (fun folderName => d.files.contains folderName
              || folderName = ".versions")) := by
  refine ⟨⟨?_, ?_⟩, ?_, ?_⟩
  · unfold cleanupEmptyEnvironment cleanupOrphanedVersionFolders
    dsimp only
    rw [if_pos rfl]
    exact mget_mapAt_self st.envDirs "default" cleanOrphansDir
  · unfold cleanupEmptyEnvironment cleanupOrphanedVersionFolders
    dsimp only
    rw [if_pos rfl]
  · unfold cleanupAllEmptyEnvironments
    dsimp only
    by_cases hmem : "default" ∈ st.envDirs.map (·.1)
    · obtain ⟨l1, l2, hsplit⟩ := List.append_of_mem hmem
      have hnd' := hsplit ▸ hnd
      have hl1 : "default" ∉ l1 := by
        have := List.disjoint_of_nodup_append hnd'
        intro hh
        exact this hh (List.mem_cons_self _ _)
      have hl2 : "default" ∉ l2 :=
        (List.nodup_append.mp hnd').2.1.not_mem
      rw [hsplit]
      obtain ⟨a1, a2⟩ := foldl_cleanup_one_default l1 l2 hl1 hl2 st
      obtain ⟨b1, b2⟩ := foldl_cleanup_text
        (((l1 ++ "default" :: l2).foldl (fun acc env =>
          if env = "default" then cleanupOrphanedVersionFolders env acc
          else cleanupEmptyEnvironment env acc) st).textFiles.map (·.1))
        ((l1 ++ "default" :: l2).foldl (fun acc env =>
          if env = "default" then cleanupOrphanedVersionFolders env acc
          else cleanupEmptyEnvironment env acc) st)
      exact ⟨b1.trans a1, b2.trans a2⟩
    · have hnone : mget st.envDirs "default" = none :=
        mget_none_of_not_mem_keys st.envDirs "default" hmem
      obtain ⟨a1, a2⟩ := foldl_cleanup_not_default
        (st.envDirs.map (·.1)) st hmem
      obtain ⟨b1, b2⟩ := foldl_cleanup_text
        (((st.envDirs.map (·.1)).foldl (fun acc env =>
          if env = "default" then cleanupOrphanedVersionFolders env acc
          else cleanupEmptyEnvironment env acc) st).textFiles.map (·.1))
        ((st.envDirs.map (·.1)).foldl (fun acc env =>
          if env = "default" then cleanupOrphanedVersionFolders env acc
          else cleanupEmptyEnvironment env acc) st)
      refine ⟨?_, b2.trans a2⟩
      rw [b1.trans a1, hnone]
      rfl
  · intro d hd
    simp [cleanOrphansDir, hd]

/-- C7, witness: a state where the default environment is empty (no files,
blank text) and holds one orphaned version folder next to one tracked one. -/
theorem c7_witness :
    (mget (cleanupEmptyEnvironment "default"
        { envDirs := [("default",
            { files := ["a.txt"], versionsDirExists := true,
              versionFolders := ["a.txt", "ghost.bin"] })],
          textFiles := [("default", " ")],
          sharedTextCache := [] }).envDirs "default"
      = some { files := ["a.txt"], versionsDirExists := true,
               versionFolders := ["a.txt"] }
    ∧ mget (cleanupEmptyEnvironment "default"
        { envDirs := [("default",
            { files := ["a.txt"], versionsDirExists := true,
              versionFolders := ["a.txt", "ghost.bin"] })],
          textFiles := [("default", " ")],
          sharedTextCache := [] }).textFiles "default" = some " ")
    ∧ (mget (cleanupAllEmptyEnvironments
        { envDirs := [("default",
            { files := ["a.txt"], versionsDirExists := true,
              versionFolders := ["a.txt", "ghost.bin"] })],
          textFiles := [("default", " ")],
          sharedTextCache := [] }).envDirs "default"
      = some { files := ["a.txt"], versionsDirExists := true,
               versionFolders := ["a.txt"] }
    ∧ mget (cleanupAllEmptyEnvironments
        { envDirs := [("default",
            { files := ["a.txt"], versionsDirExists := true,
              versionFolders := ["a.txt", "ghost.bin"] })],
          textFiles := [("default", " ")],
          sharedTextCache := [] }).textFiles "default" = some " ") := by
  have h := c7_theorem
    { envDirs := [("default",
        { files := ["a.txt"], versionsDirExists := true,
          versionFolders := ["a.txt", "ghost.bin"] })],
      textFiles := [("default", " ")],
      sharedTextCache := [] } (by decide)
  obtain ⟨⟨h1, h2⟩, ⟨h3, h4⟩, _⟩ := h
  refine ⟨⟨?_, ?_⟩, ?_, ?_⟩
  · rw [h1]
    decide
  · rw [h2]
    decide
  · rw [h3]
    decide
  · rw [h4]
    decide

/-! ### Supporting lemmas for the Chunk Assembler theorems -/

/-- Folding `receiveChunk` over a list of indices: the session keeps its
identity fields, counts one receive per call, holds a chunk-map entry and a
buffered temp file for every listed index, and the file stores are
untouched. -/
theorem receiveMany_inv (uid : String) (B : Nat → List Nat) (now : Nat) :
    ∀ (order : List Nat) (gs : GlobalState) (s : UploadSession),
      uid ≠ "" → mget gs.uploadSessions uid = some s →
      ∃ s',
        mget (receiveManyState uid B now order gs).uploadSessions uid = some s'
        ∧ s'.totalChunks = s.totalChunks
        ∧ s'.fileName = s.fileName
        ∧ s'.environmentName = s.environmentName
        ∧ s'.uploadedChunks = s.uploadedChunks + order.length
        ∧ (∀ i, i ∈ order → mget s'.chunks i = some (.chunk uid i))
        ∧ (∀ i, i ∉ order → mget s'.chunks i = mget s.chunks i)
        ∧ (∀ i, i ∈ order →
            mget (receiveManyState uid B now order gs).tempFiles
              (.chunk uid i) = some (B i))
        ∧ (∀ p : TempPath, (∀ i, i ∈ order → p ≠ .chunk uid i) →
            mget (receiveManyState uid B now order gs).tempFiles p
              = mget gs.tempFiles p)
        ∧ (receiveManyState uid B now order gs).fileStores = gs.fileStores := by
  intro order
  induction order with
  | nil =>
    intro gs s hu hs
    refine ⟨s, hs, rfl, rfl, rfl, by simp, ?_, ?_, ?_, ?_, rfl⟩
    · intro i hi
      cases hi
    · intro i _
      rfl
    · intro i hi
      cases hi
    · intro p _
      rfl
  | cons j rest ih =>
    intro gs s hu hs
    have hrc : (receiveChunk uid j (B j) now gs).1
        = { gs with
            uploadSessions := mset gs.uploadSessions uid
              { s with
                chunks := mset s.chunks j (.chunk uid j),
                uploadedChunks := s.uploadedChunks + 1,
                lastActivity := some now },
            tempFiles := mset gs.tempFiles (.chunk uid j) (B j) } := by
      simp [receiveChunk, hu, hs]
    have hstep : receiveManyState uid B now (j :: rest) gs
        = receiveManyState uid B now rest (receiveChunk uid j (B j) now gs).1 :=
      rfl
    obtain ⟨s', h1, h2, h3, h4, h5, h6, h7, h8, h9, h10⟩ :=
      ih (receiveChunk uid j (B j) now gs).1
        { s with
          chunks := mset s.chunks j (.chunk uid j),
          uploadedChunks := s.uploadedChunks + 1,
          lastActivity := some now }
        hu (by rw [hrc]; exact mget_mset_self _ _ _)
    refine ⟨s', by rw [hstep]; exact h1, h2, h3, h4, ?_, ?_, ?_, ?_, ?_, ?_⟩
    · rw [h5]
      simp only [List.length_cons]
      omega
    · intro i hi
      rcases List.mem_cons.mp hi with rfl | hi'
      · by_cases hjr : i ∈ rest
        · exact h6 i hjr
        · rw [h7 i hjr]
          exact mget_mset_self _ _ _
      · exact h6 i hi'
    · intro i hi
      have hij : i ∉ rest := fun hh => hi (List.mem_cons_of_mem j hh)
      have hji : ¬ (j = i) := fun hh => hi (hh ▸ List.mem_cons_self j rest)
      rw [h7 i hij]
      exact mget_mset_ne _ _ _ _ hji
    · intro i hi
      rw [hstep]
      rcases List.mem_cons.mp hi with rfl | hi'
      · by_cases hjr : i ∈ rest
        · exact h8 i hjr
        · have hne : ∀ i', i' ∈ rest →
              TempPath.chunk uid i ≠ TempPath.chunk uid i' := by
            intro i' hi' heq
            injection heq with h1' h2'
            exact hjr (h2' ▸ hi')
          rw [h9 (.chunk uid i) hne, hrc]
          exact mget_mset_self _ _ _
      · exact h8 i hi'
    · intro p hp
      rw [hstep, h9 p (fun i hi => hp i (List.mem_cons_of_mem j hi)), hrc]
      exact mget_mset_ne _ _ _ _
        (fun hh => hp j (List.mem_cons_self j rest) hh.symm)
    · rw [hstep, h10, hrc]

/-- The chunk-reading loop succeeds and returns the mapped bytes when every
listed index resolves. -/
theorem readChunkList_all (tempFiles : List (TempPath × List Nat))
    (chunks : List (Nat × TempPath)) (g : Nat → List Nat) :
    ∀ (l : List Nat),
      (∀ i ∈ l, (mget chunks i).bind (fun p => mget tempFiles p) = some (g i)) →
      readChunkList tempFiles chunks l = some (l.map g) := by
  intro l
  induction l with
  | nil =>
    intro _
    rfl
  | cons i rest ih =>
    intro h
    have hi := h i (List.mem_cons_self i rest)
    have hrest := ih (fun i' hi' => h i' (List.mem_cons_of_mem i hi'))
    unfold readChunkList
    rw [hi]
    dsimp only
    rw [hrest]
    rfl

/-! ### C9: complete writes into the session's environment -/

/-- C9.  `completeUpload` ignores the environment named in the route path
whenever the session carries a (non-empty) environment name: the result does
not depend on the path parameter at all, and on success the assembled file
is installed in the file store keyed by the session's environment and file
name, leaving every other (environment, file) store untouched. -/
theorem c9_theorem (envB uid vid : String) (t : Nat) (gs : GlobalState)
    (s : UploadSession) (hu : uid ≠ "")
    (hs : mget gs.uploadSessions uid = some s)
    (hA : s.environmentName ≠ "") :
    (∀ envC, completeUpload envB uid vid t gs
        = completeUpload envC uid vid t gs)
  ∧ (∀ gs' resp, completeUpload envB uid vid t gs = (gs', .ok resp) →
      ∃ chunkData,
        collectChunks gs.tempFiles s.chunks s.totalChunks = some chunkData
        ∧ (∀ env' name', (env', name') ≠ (s.environmentName, s.fileName) →
            mget gs'.fileStores (env', name')
              = mget gs.fileStores (env', name'))
        ∧ ∃ st', mget gs'.fileStores (s.environmentName, s.fileName) = some st'
            ∧ st'.liveFile = some (concatBytes chunkData)) := by
  constructor
  · intro envC
    unfold completeUpload
    dsimp only
    rw [if_neg hu]
    simp only [hs]
    split
    · rfl
    · rcases hcol : collectChunks gs.tempFiles s.chunks s.totalChunks
        with _ | chunkData
      · simp only [hcol]
      · simp only [hcol]
  · intro gs' resp h
    unfold completeUpload at h
    dsimp only at h
    rw [if_neg hu] at h
    simp only [hs] at h
    split at h
    · simp at h
    · rcases hcol : collectChunks gs.tempFiles s.chunks s.totalChunks
        with _ | chunkData
      · simp only [hcol] at h
        simp at h
      · simp only [hcol] at h
        obtain ⟨vf, hspec, _⟩ := createNewVersion_spec s.fileName vid t
          (concatBytes chunkData).length (concatBytes chunkData)
          ((mget gs.fileStores (s.environmentName, s.fileName)).getD
            emptyFileStore)
        rw [hspec] at h
        injection h with h1 h2
        subst h1
        refine ⟨chunkData, rfl, ?_, ?_⟩
        · intro env' name' hne
          exact mget_mset_ne _ _ _ _ (fun hh => hne hh.symm)
        · exact ⟨_, mget_mset_self _ _ _, rfl⟩

/-- C9, witness: the scenario session was initiated in environment default;
completing it via the beta route's path parameter behaves exactly as via any
other route. -/
theorem c9_witness :
    (∀ envC, completeUpload "beta" "u1" "vx" 7 dupGs2
        = completeUpload envC "u1" "vx" 7 dupGs2)
  ∧ (∀ gs' resp, completeUpload "beta" "u1" "vx" 7 dupGs2 = (gs', .ok resp) →
      ∃ chunkData,
        collectChunks dupGs2.tempFiles dupSess2.chunks dupSess2.totalChunks
          = some chunkData
        ∧ (∀ env' name',
            (env', name') ≠ (dupSess2.environmentName, dupSess2.fileName) →
            mget gs'.fileStores (env', name')
              = mget dupGs2.fileStores (env', name'))
        ∧ ∃ st', mget gs'.fileStores
              (dupSess2.environmentName, dupSess2.fileName) = some st'
            ∧ st'.liveFile = some (concatBytes chunkData)) :=
  c9_theorem "beta" "u1" "vx" 7 dupGs2 dupSess2 (by decide) (by decide)
    (by decide)

/-! ### C4: completion gate and byte-exact reassembly -/

/-- C4, counterexample.  In `dupGs4` every chunk index of the two-chunk
session (0 and 1) has been received, yet `completeUpload` fails with the
`Incomplete upload` InvalidState error and changes nothing: chunk 0 arrived
twice, so `uploadedChunks` is 3 and the `uploadedChunks !== totalChunks`
gate rejects the session even though all indices are present. -/
theorem c4_counterexample :
    (mget dupGs4.uploadSessions "u1").map
        (fun s => (mget s.chunks 0).isSome && (mget s.chunks 1).isSome)
      = some true
  ∧ (mget dupGs4.uploadSessions "u1").map (·.totalChunks) = some 2
  ∧ (mget dupGs4.uploadSessions "u1").map (·.uploadedChunks) = some 3
  ∧ errOf (completeUpload "default" "u1" "vx" 9 dupGs4).2
      = some .invalidState
  ∧ (completeUpload "default" "u1" "vx" 9 dupGs4).1 = dupGs4 := by
  decide

/-- C4, amended.  `completeUpload` fails with InvalidState whenever the
receive-event count `uploadedChunks` differs from `totalChunks` — in
particular whenever fewer than `totalChunks` chunks have been uploaded, but
also after duplicate receives with every index present.  When every index
0..totalChunks-1 of a fresh session is received exactly once, in any arrival
order, completion succeeds and the live copy installed for the session's
file is the byte-exact concatenation of the chunks in index order. -/
theorem c4_theorem (envA envB fnRaw fnSan uid vid : String)
    (fsz n now0 now t : Nat) (B : Nat → List Nat) (order : List Nat)
    (fs0 : List ((String × String) × FileStore))
    (hu : uid ≠ "") (hA : envA ≠ "")
    (hperm : List.Perm order (List.range n)) :
    (∀ (gs : GlobalState) (s : UploadSession),
        mget gs.uploadSessions uid = some s →
        s.uploadedChunks < s.totalChunks →
        completeUpload envB uid vid t gs = (gs, .error .invalidState))
  ∧ ((fnRaw = "" || fsz = 0 || n = 0) = false →
      ∃ gs2 resp,
        completeUpload envB uid vid t
          (receiveManyState uid B now order
            (initiateUpload envA fnRaw fnSan fsz n uid now0
              { uploadSessions := [], tempFiles := [], fileStores := fs0 }).1)
          = (gs2, .ok resp)
        ∧ ∃ st', mget gs2.fileStores (envA, fnSan) = some st'
            ∧ st'.liveFile
              = some (concatBytes ((List.range n).map B))) := by
  constructor
  · intro gs s hs hlt
    unfold completeUpload
    dsimp only
    rw [if_neg hu]
    simp only [hs]
    rw [if_pos (by omega : s.uploadedChunks ≠ s.totalChunks)]
  · intro hinit
    have hgs0 : (initiateUpload envA fnRaw fnSan fsz n uid now0
        { uploadSessions := [], tempFiles := [], fileStores := fs0 }).1
        = { uploadSessions := [(uid,
              { fileName := fnSan, originalFileName := fnRaw, fileSize := fsz,
                totalChunks := n, uploadedChunks := 0, chunks := [],
                createdAt := now0, lastActivity := none, status := none,
                canceledAt := none, environmentName := envA })],
            tempFiles := [], fileStores := fs0 } := by
      unfold initiateUpload
      rw [hinit]
      rfl
    obtain ⟨s', h1, h2, h3, h4, h5, h6, h7, h8, h9, h10⟩ :=
      receiveMany_inv uid B now order
        (initiateUpload envA fnRaw fnSan fsz n uid now0
          { uploadSessions := [], tempFiles := [], fileStores := fs0 }).1
        { fileName := fnSan, originalFileName := fnRaw, fileSize := fsz,
          totalChunks := n, uploadedChunks := 0, chunks := [],
          createdAt := now0, lastActivity := none, status := none,
          canceledAt := none, environmentName := envA }
        hu (by rw [hgs0]; exact mget_mset_self [] uid _)
    have hlen : order.length = n := by
      have := hperm.length_eq
      simpa using this
    have h2' : s'.totalChunks = n := h2
    have h5' : s'.uploadedChunks = 0 + order.length := h5
    have hcount : s'.uploadedChunks = s'.totalChunks := by omega
    have hcol : collectChunks
        (receiveManyState uid B now order
          (initiateUpload envA fnRaw fnSan fsz n uid now0
            { uploadSessions := [], tempFiles := [], fileStores := fs0 }).1).tempFiles
        s'.chunks s'.totalChunks
        = some ((List.range s'.totalChunks).map B) := by
      apply readChunkList_all
      intro i hi
      have hio : i ∈ order := by
        rw [h2] at hi
        exact hperm.mem_iff.mpr hi
      rw [h6 i hio]
      exact h8 i hio
    unfold completeUpload
    dsimp only
    rw [if_neg hu]
    simp only [h1]
    rw [if_neg (by omega : ¬ s'.uploadedChunks ≠ s'.totalChunks)]
    clear hcount
    simp only [hcol]
    have henv : s'.environmentName ≠ "" := by
      rw [h4]
      exact hA
    rw [if_pos henv]
    obtain ⟨vf, hspec, _⟩ := createNewVersion_spec s'.fileName vid t
      (concatBytes ((List.range s'.totalChunks).map B)).length
      (concatBytes ((List.range s'.totalChunks).map B))
      ((mget (receiveManyState uid B now order
          (initiateUpload envA fnRaw fnSan fsz n uid now0
            { uploadSessions := [], tempFiles := [], fileStores := fs0 }).1).fileStores
        (s'.environmentName, s'.fileName)).getD emptyFileStore)
    rw [hspec]
    have hkey : (envA, fnSan) = (s'.environmentName, s'.fileName) := by
      rw [h4, h3]
    refine ⟨_, _, rfl, ?_⟩
    rw [hkey, mget_mset_self]
    refine ⟨_, rfl, ?_⟩
    show some (concatBytes ((List.range s'.totalChunks).map B))
      = some (concatBytes ((List.range n).map B))
    rw [h2']

/-- C4, witness: a two-chunk session whose chunks arrive out of order
(index 1 before index 0) completes into the byte-exact concatenation. -/
theorem c4_witness :
    ((∀ (gs : GlobalState) (s : UploadSession),
        mget gs.uploadSessions "u9" = some s →
        s.uploadedChunks < s.totalChunks →
        completeUpload "beta" "u9" "vy" 6 gs = (gs, .error .invalidState))
  ∧ ((("a.bin" : String) = "" || (10 : Nat) = 0 || (2 : Nat) = 0) = false →
      ∃ gs2 resp,
        completeUpload "beta" "u9" "vy" 6
          (receiveManyState "u9" (fun i => [i, i + 40]) 5 [1, 0]
            (initiateUpload "alpha" "a.bin" "a.bin" 10 2 "u9" 4
              { uploadSessions := [], tempFiles := [], fileStores := [] }).1)
          = (gs2, .ok resp)
        ∧ ∃ st', mget gs2.fileStores ("alpha", "a.bin") = some st'
            ∧ st'.liveFile
              = some (concatBytes ((List.range 2).map
                  (fun i => [i, i + 40]))))) :=
  c4_theorem "alpha" "beta" "a.bin" "a.bin" "u9" "vy" 10 2 4 5 6
    (fun i => [i, i + 40]) [1, 0] [] (by decide) (by decide) (by decide)

/-! ### Supporting lemmas for the C5 reachability invariant -/

theorem string_append_right_cancel (a b c : String) (h : a ++ c = b ++ c) :
    a = b := by
  apply String.ext
  have hd : a.data ++ c.data = b.data ++ c.data := by
    rw [← String.data_append, ← String.data_append, h]
  exact List.append_cancel_right hd

theorem mget_of_mget_mdel [DecidableEq κ] (m : List (κ × α)) (k k' : κ)
    (b : α) (h : mget (mdel m k) k' = some b) : mget m k' = some b := by
  by_cases hk : k = k'
  · subst hk
    rw [mget_mdel_self] at h
    cases h
  · rwa [mget_mdel_ne m k k' hk] at h

theorem insertDesc_perm (x : VersionInfo) (l : List VersionInfo) :
    List.Perm (insertDesc x l) (x :: l) := by
  induction l with
  | nil => exact List.Perm.refl _
  | cons y ys ih =>
    by_cases h : x.uploadedAt ≤ y.uploadedAt
    · simp only [insertDesc, if_pos h]
      exact (ih.cons y).trans (List.Perm.swap x y ys)
    · simp only [insertDesc, if_neg h]
      exact List.Perm.refl _

theorem sortVersionsDesc_perm (l : List VersionInfo) :
    List.Perm (sortVersionsDesc l) l := by
  have aux : ∀ (l acc : List VersionInfo),
      List.Perm (l.foldl (fun acc x => insertDesc x acc) acc) (l ++ acc) := by
    intro l
    induction l with
    | nil => intro acc; exact List.Perm.refl _
    | cons x xs ih =>
      intro acc
      simp only [List.foldl_cons, List.cons_append]
      have h1 := ih (insertDesc x acc)
      have h2 : List.Perm (xs ++ insertDesc x acc) (xs ++ (x :: acc)) :=
        List.Perm.append_left xs (insertDesc_perm x acc)
      have h3 : List.Perm (xs ++ (x :: acc)) (x :: (xs ++ acc)) :=
        List.perm_middle
      exact (h1.trans h2).trans h3
  simpa using aux l []

/-- When versionIds are unique, the linear search for a member's id finds
that member. -/
theorem find?_versionId_of_nodup (l : List VersionInfo) (v : VersionInfo)
    (hn : (l.map (·.versionId)).Nodup) (hv : v ∈ l) :
    l.find? (fun w => w.versionId = v.versionId) = some v := by
  induction l with
  | nil => cases hv
  | cons y ys ih =>
    rcases List.mem_cons.mp hv with rfl | hv'
    · simp [List.find?]
    · rw [List.map_cons, List.nodup_cons] at hn
      have hy : ¬ (y.versionId = v.versionId) := by
        intro hEq
        have hmm : v.versionId ∈ ys.map (·.versionId) :=
          List.mem_map_of_mem _ hv'
        exact hn.1 (hEq ▸ hmm)
      simp only [List.find?]
      rw [show (decide (y.versionId = v.versionId)) = false by simpa using hy]
      exact ih hn.2 hv'

theorem vsinv_empty (name : String) : VSInv name emptyFileStore [] := by
  refine ⟨?_, ?_, ?_, ?_, ?_, ?_⟩
  · intro v hv
    cases hv
  · intro v hv
    cases hv
  · exact List.nodup_nil
  · intro cv hcv
    cases hcv
  · intro b hb
    cases hb
  · intro fn b hb
    cases hb

theorem vsinv_create (name vid : String) (t sz : Nat) (src : List Nat)
    (st : FileStore) (orig : OrigBytes)
    (inv : VSInv name st orig)
    (hfresh : mget orig vid = none)
    (hfresh2 : ∀ v ∈ (readFileMetadata name st).versions, v.versionId ≠ vid)
    (hclock : ∀ v ∈ (readFileMetadata name st).versions, v.uploadedAt < t) :
    VSInv name (createNewVersion name vid t sz src st).1 (mset orig vid src) := by
  obtain ⟨vf, heq, hvf⟩ := createNewVersion_spec name vid t sz src st
  rw [heq]
  have hsorted : sortVersionsDesc ((readFileMetadata name st).versions
        ++ [newVersionInfo name vid t sz])
      = newVersionInfo name vid t sz
        :: sortVersionsDesc (readFileMetadata name st).versions :=
    sortVersionsDesc_append_gt _ _ hclock
  have hmem : ∀ v, v ∈ (addVersionToMetadata (readFileMetadata name st)
        (newVersionInfo name vid t sz)).versions
      ↔ v = newVersionInfo name vid t sz
        ∨ v ∈ (readFileMetadata name st).versions := by
    intro v
    show v ∈ sortVersionsDesc _ ↔ _
    rw [hsorted]
    simp only [List.mem_cons]
    rw [mem_sortVersionsDesc]
  have hcur : (addVersionToMetadata (readFileMetadata name st)
        (newVersionInfo name vid t sz)).currentVersion
      = some (newVersionInfo name vid t sz) := by
    show (sortVersionsDesc _).head? = _
    rw [hsorted]
    rfl
  have horig_old : ∀ (id : String) (b : List Nat),
      mget orig id = some b → mget (mset orig vid src) id = some b := by
    intro id b hb
    have hne : ¬ (vid = id) := by
      intro hh
      rw [← hh] at hb
      rw [hfresh] at hb
      cases hb
    rw [mget_mset_ne orig vid id src hne]
    exact hb
  refine ⟨?_, ?_, ?_, ?_, ?_, ?_⟩
  · intro v hv
    rcases (hmem v).mp hv with rfl | hv'
    · rfl
    · exact inv.ext_eq v hv'
  · intro v hv
    rcases (hmem v).mp hv with rfl | hv'
    · exact ⟨src, mget_mset_self orig vid src⟩
    · obtain ⟨b, hb⟩ := inv.ids_ghost v hv'
      exact ⟨b, horig_old _ b hb⟩
  · show ((addVersionToMetadata _ _).versions.map (·.versionId)).Nodup
    have hperm : List.Perm
        ((readFileMetadata name st).versions.map (·.versionId))
        ((sortVersionsDesc (readFileMetadata name st).versions).map
          (·.versionId)) :=
      ((sortVersionsDesc_perm _).symm).map _
    have hn2 : ((sortVersionsDesc (readFileMetadata name st).versions).map
        (·.versionId)).Nodup := hperm.nodup inv.nodup
    show ((sortVersionsDesc _).map (·.versionId)).Nodup
    rw [hsorted, List.map_cons, List.nodup_cons]
    refine ⟨?_, hn2⟩
    intro hmm
    obtain ⟨w, hw, hwid⟩ := List.mem_map.mp hmm
    have hw' : w ∈ (readFileMetadata name st).versions :=
      (mem_sortVersionsDesc w _).mp hw
    exact hfresh2 w hw' hwid
  · intro cv hcv
    have hcv' : (addVersionToMetadata (readFileMetadata name st)
        (newVersionInfo name vid t sz)).currentVersion = some cv := hcv
    rw [hcur] at hcv'
    cases hcv'
    exact (hmem _).mpr (Or.inl rfl)
  · intro b hb
    cases hb
    exact ⟨newVersionInfo name vid t sz, hcur, mget_mset_self orig vid src⟩
  · intro fn b hfn
    rcases hvf with rfl | ⟨cv, bb, hcv, hlv, hnone, rfl⟩
    · obtain ⟨id, hid, hb⟩ := inv.arch_inv fn b hfn
      exact ⟨id, hid, horig_old id b hb⟩
    · by_cases hk : cv.versionId ++ extname name = fn
      · rw [← hk, mget_mset_self] at hfn
        cases hfn
        obtain ⟨cv0, hcv0, horig0⟩ := inv.live_inv b hlv
        rw [hcv] at hcv0
        cases hcv0
        exact ⟨cv.versionId, hk.symm, horig_old _ b horig0⟩
      · rw [mget_mset_ne _ _ _ _ hk] at hfn
        obtain ⟨id, hid, hb⟩ := inv.arch_inv fn b hfn
        exact ⟨id, hid, horig_old id b hb⟩

theorem vsinv_delete (name vid : String) (st : FileStore) (orig : OrigBytes)
    (inv : VSInv name st orig) :
    VSInv name (deleteFileVersion name vid st).1 orig := by
  unfold deleteFileVersion
  dsimp only
  rcases hidx : (readFileMetadata name st).versions.findIdx?
      (fun v => v.versionId = vid) with _ | versionIndex
  · simp only [hidx]
    exact inv
  · simp only [hidx]
    rcases hver : (readFileMetadata name st).versions[versionIndex]?
      with _ | version
    · simp only [hver]
      exact inv
    · simp only [hver]
      by_cases hcur : some version.versionId
          = (readFileMetadata name st).currentVersion.map (·.versionId)
      · rw [if_pos hcur]
        rcases hsort : sortVersionsDesc
            ((readFileMetadata name st).versions.eraseIdx versionIndex)
          with _ | ⟨newCurrent, restSorted⟩
        · simp only [hsort]
          have hrem : (readFileMetadata name st).versions.eraseIdx
              versionIndex = [] :=
            (sortVersionsDesc_eq_nil_iff _).mp hsort
          unfold deleteFileVersion.deleteFinish
          rw [if_pos hrem]
          refine ⟨?_, ?_, ?_, ?_, ?_, ?_⟩
          · intro v hv
            cases hv
          · intro v hv
            cases hv
          · exact List.nodup_nil
          · intro cv hcv
            cases hcv
          · intro b hb
            cases hb
          · intro fn b hb
            exact inv.arch_inv fn b hb
        · simp only [hsort]
          unfold deleteFileVersion.deleteFinish
          rw [if_neg (by simp : ¬ (newCurrent :: restSorted = []))]
          have hmemtrans : ∀ v ∈ newCurrent :: restSorted,
              v ∈ (readFileMetadata name st).versions := by
            intro v hv
            have hv1 : v ∈ sortVersionsDesc
                ((readFileMetadata name st).versions.eraseIdx
                  versionIndex) := by
              rw [hsort]
              exact hv
            exact List.mem_of_mem_eraseIdx
              ((mem_sortVersionsDesc v _).mp hv1)
          have hperm : List.Perm (newCurrent :: restSorted)
              ((readFileMetadata name st).versions.eraseIdx
                versionIndex) := by
            rw [← hsort]
            exact sortVersionsDesc_perm _
          have hnodup' : ((newCurrent :: restSorted).map
              (·.versionId)).Nodup := by
            have h1 : ((((readFileMetadata name st).versions.eraseIdx
                versionIndex)).map (·.versionId)).Nodup := by
              rw [map_eraseIdx]
              exact List.Nodup.sublist
                (List.eraseIdx_sublist _ versionIndex) inv.nodup
            exact (hperm.symm.map _).nodup h1
          have hcvne : ¬ (some newCurrent.versionId
              = (readFileMetadata name st).currentVersion.map
                (·.versionId)) := by
            intro hh
            have hss : some newCurrent.versionId
                = some version.versionId := by
              rw [hh, ← hcur]
            have hid : newCurrent.versionId = version.versionId :=
              Option.some.inj hss
            have hmm : newCurrent.versionId ∈
                (((readFileMetadata name st).versions.map
                  (·.versionId)).eraseIdx versionIndex) := by
              rw [← map_eraseIdx]
              exact List.mem_map_of_mem _
                (hperm.subset (List.mem_cons_self _ _))
            have hgl : ((readFileMetadata name st).versions.map
                (·.versionId))[versionIndex]?
                = some version.versionId := by
              rw [List.getElem?_map, hver]
              rfl
            have hnot := nodup_getElem_not_mem_eraseIdx _ versionIndex _
              inv.nodup hgl
            rw [← hid] at hnot
            exact hnot hmm
          have hgp : getFileVersionPath name { st with liveFile := none }
              newCurrent.versionId
              = some (.versioned newCurrent.fileName) := by
            unfold getFileVersionPath
            dsimp only
            have hmem1 : newCurrent ∈ (readFileMetadata name
                { st with liveFile := none }).versions :=
              hmemtrans newCurrent (List.mem_cons_self _ _)
            have hnd1 : ((readFileMetadata name
                { st with liveFile := none }).versions.map
                (·.versionId)).Nodup := inv.nodup
            have hfind := find?_versionId_of_nodup _ newCurrent hnd1 hmem1
            simp only [hfind]
            have hcvne1 : ¬ (some newCurrent.versionId
                = (readFileMetadata name
                  { st with liveFile := none }).currentVersion.map
                  (·.versionId)) := hcvne
            rw [if_neg hcvne1]
          simp only [hgp]
          rcases hrp : readPath { st with liveFile := none }
              (.versioned newCurrent.fileName) with _ | bb
          · simp only [hrp]
            refine ⟨?_, ?_, ?_, ?_, ?_, ?_⟩
            · intro v hv
              exact inv.ext_eq v (hmemtrans v hv)
            · intro v hv
              exact inv.ids_ghost v (hmemtrans v hv)
            · exact hnodup'
            · intro cv hcv
              have hcv' : some newCurrent = some cv := hcv
              cases hcv'
              exact List.mem_cons_self _ _
            · intro b hb
              have hb' : (none : Option (List Nat)) = some b := hb
              cases hb'
            · intro fn b hfn
              exact inv.arch_inv fn b hfn
          · simp only [hrp]
            have hmg : mget st.versionFiles newCurrent.fileName
                = some bb := hrp
            obtain ⟨id, hfneq, horig⟩ := inv.arch_inv _ _ hmg
            have hext := inv.ext_eq newCurrent
              (hmemtrans newCurrent (List.mem_cons_self _ _))
            have hideq : id = newCurrent.versionId :=
              string_append_right_cancel _ _ _ (by rw [← hfneq]; exact hext)
            refine ⟨?_, ?_, ?_, ?_, ?_, ?_⟩
            · intro v hv
              exact inv.ext_eq v (hmemtrans v hv)
            · intro v hv
              exact inv.ids_ghost v (hmemtrans v hv)
            · exact hnodup'
            · intro cv hcv
              have hcv' : some newCurrent = some cv := hcv
              cases hcv'
              exact List.mem_cons_self _ _
            · intro b hb
              have hb' : some bb = some b := hb
              cases hb'
              exact ⟨newCurrent, rfl, by rw [← hideq]; exact horig⟩
            · intro fn b hfn
              exact inv.arch_inv fn b hfn
      · rw [if_neg hcur]
        have hsub : ∀ v ∈ (readFileMetadata name st).versions.eraseIdx
            versionIndex, v ∈ (readFileMetadata name st).versions :=
          fun _ hv => List.mem_of_mem_eraseIdx hv
        have hnodup' : (((readFileMetadata name st).versions.eraseIdx
            versionIndex).map (·.versionId)).Nodup := by
          rw [map_eraseIdx]
          exact List.Nodup.sublist
            (List.eraseIdx_sublist _ versionIndex) inv.nodup
        have hcvP : ∀ cv, (readFileMetadata name st).currentVersion
            = some cv →
            cv ∈ (readFileMetadata name st).versions.eraseIdx
              versionIndex := by
          intro cv hcv
          have hmemcv := inv.cur_mem cv hcv
          have hne : cv ≠ version := by
            intro hEq
            apply hcur
            rw [hcv, hEq]
            rfl
          exact mem_eraseIdx_of_ne _ _ _ _ hver hmemcv hne
        rcases hgp : getFileVersionPath name st vid with _ | p
        · simp only [hgp]
          unfold deleteFileVersion.deleteFinish
          by_cases hemp : (readFileMetadata name st).versions.eraseIdx
              versionIndex = []
          · rw [if_pos hemp]
            refine ⟨?_, ?_, ?_, ?_, ?_, ?_⟩
            · intro v hv
              cases hv
            · intro v hv
              cases hv
            · exact List.nodup_nil
            · intro cv hcv
              cases hcv
            · intro b hb
              obtain ⟨cv, hcv, _⟩ := inv.live_inv b hb
              have hcve := hcvP cv hcv
              rw [hemp] at hcve
              cases hcve
            · intro fn b hfn
              exact inv.arch_inv fn b hfn
          · rw [if_neg hemp]
            refine ⟨?_, ?_, ?_, ?_, ?_, ?_⟩
            · intro v hv
              exact inv.ext_eq v (hsub v hv)
            · intro v hv
              exact inv.ids_ghost v (hsub v hv)
            · exact hnodup'
            · intro cv hcv
              exact hcvP cv hcv
            · intro b hb
              obtain ⟨cv, hcv, horig⟩ := inv.live_inv b hb
              exact ⟨cv, hcv, horig⟩
            · intro fn b hfn
              exact inv.arch_inv fn b hfn
        · rcases p with _ | fn0
          · simp only [hgp]
            unfold deleteFileVersion.deleteFinish
            by_cases hemp : (readFileMetadata name st).versions.eraseIdx
                versionIndex = []
            · rw [if_pos hemp]
              refine ⟨?_, ?_, ?_, ?_, ?_, ?_⟩
              · intro v hv
                cases hv
              · intro v hv
                cases hv
              · exact List.nodup_nil
              · intro cv hcv
                cases hcv
              · intro b hb
                have hb' : (none : Option (List Nat)) = some b := hb
                cases hb'
              · intro fn b hfn
                exact inv.arch_inv fn b hfn
            · rw [if_neg hemp]
              refine ⟨?_, ?_, ?_, ?_, ?_, ?_⟩
              · intro v hv
                exact inv.ext_eq v (hsub v hv)
              · intro v hv
                exact inv.ids_ghost v (hsub v hv)
              · exact hnodup'
              · intro cv hcv
                exact hcvP cv hcv
              · intro b hb
                have hb' : (none : Option (List Nat)) = some b := hb
                cases hb'
              · intro fn b hfn
                exact inv.arch_inv fn b hfn
          · simp only [hgp]
            unfold deleteFileVersion.deleteFinish
            by_cases hemp : (readFileMetadata name st).versions.eraseIdx
                versionIndex = []
            · rw [if_pos hemp]
              refine ⟨?_, ?_, ?_, ?_, ?_, ?_⟩
              · intro v hv
                cases hv
              · intro v hv
                cases hv
              · exact List.nodup_nil
              · intro cv hcv
                cases hcv
              · intro b hb
                obtain ⟨cv, hcv, _⟩ := inv.live_inv b hb
                have hcve := hcvP cv hcv
                rw [hemp] at hcve
                cases hcve
              · intro fn b hfn
                exact inv.arch_inv fn b (mget_of_mget_mdel _ _ _ _ hfn)
            · rw [if_neg hemp]
              refine ⟨?_, ?_, ?_, ?_, ?_, ?_⟩
              · intro v hv
                exact inv.ext_eq v (hsub v hv)
              · intro v hv
                exact inv.ids_ghost v (hsub v hv)
              · exact hnodup'
              · intro cv hcv
                exact hcvP cv hcv
              · intro b hb
                obtain ⟨cv, hcv, horig⟩ := inv.live_inv b hb
                exact ⟨cv, hcv, horig⟩
              · intro fn b hfn
                exact inv.arch_inv fn b (mget_of_mget_mdel _ _ _ _ hfn)

theorem vsinv_promote (name vid : String) (st : FileStore) (orig : OrigBytes)
    (inv : VSInv name st orig) :
    VSInv name (promoteVersion name vid st).1 orig := by
  unfold promoteVersion
  dsimp only
  rcases hfind : (readFileMetadata name st).versions.find?
      (fun v => v.versionId = vid) with _ | version
  · simp only [hfind]
    exact inv
  · simp only [hfind]
    by_cases hcur : some version.versionId
        = (readFileMetadata name st).currentVersion.map (·.versionId)
    · rw [if_pos hcur]
      exact inv
    · rw [if_neg hcur]
      rcases hpath : getFileVersionPath name st vid with _ | versionPath
      · simp only [hpath]
        exact inv
      · simp only [hpath]
        rcases hbytes : readPath st versionPath with _ | versionBytes
        · simp only [hbytes]
          exact inv
        · simp only [hbytes]
          have hvmem : version ∈ (readFileMetadata name st).versions :=
            List.mem_of_find?_eq_some hfind
          -- The resolved path is the archived blob of the found version.
          have hpath' : versionPath = .versioned version.fileName := by
            unfold getFileVersionPath at hpath
            dsimp only at hpath
            simp only [hfind] at hpath
            rw [if_neg hcur] at hpath
            exact (Option.some.inj hpath).symm
          -- Creation bytes of the promoted version.
          have hmg : mget st.versionFiles version.fileName
              = some versionBytes := by
            rw [hpath'] at hbytes
            exact hbytes
          obtain ⟨id, hfneq, horig⟩ := inv.arch_inv _ _ hmg
          have hext := inv.ext_eq version hvmem
          have hideq : id = version.versionId :=
            string_append_right_cancel _ _ _ (by rw [← hfneq]; exact hext)
          -- The resulting state up to the archive step, which never touches
          -- the version files: the current version's id resolves back to
          -- the live path.
          have key : VSInv name
              { liveFile := some versionBytes,
                versionFiles := st.versionFiles,
                metadataFile := some { readFileMetadata name st with
                  currentVersion := some version } } orig := by
            refine ⟨?_, ?_, ?_, ?_, ?_, ?_⟩
            · intro v hv
              exact inv.ext_eq v hv
            · intro v hv
              exact inv.ids_ghost v hv
            · exact inv.nodup
            · intro cv hcv
              have hcv' : some version = some cv := hcv
              cases hcv'
              exact hvmem
            · intro b hb
              have hb' : some versionBytes = some b := hb
              cases hb'
              exact ⟨version, rfl, by rw [← hideq]; exact horig⟩
            · intro fn b hfn
              exact inv.arch_inv fn b hfn
          rcases hcv : (readFileMetadata name st).currentVersion with _ | cv
          · rcases hlv : st.liveFile with _ | lb
            · simp only [hcv, hlv]
              exact key
            · simp only [hcv, hlv]
              exact key
          · rcases hlv : st.liveFile with _ | lb
            · simp only [hcv, hlv]
              exact key
            · simp only [hcv, hlv]
              have hgp2 : getFileVersionPath name st cv.versionId
                  = some .live ∨
                  getFileVersionPath name st cv.versionId = none := by
                unfold getFileVersionPath
                dsimp only
                rcases hf2 : (readFileMetadata name st).versions.find?
                    (fun v => v.versionId = cv.versionId) with _ | w
                · right
                  simp only [hf2]
                · left
                  simp only [hf2]
                  have hw : w.versionId = cv.versionId := by
                    have := List.find?_some hf2
                    simpa using this
                  rw [if_pos (by rw [hw, hcv]; rfl)]
              rcases hgp2 with hgp2 | hgp2
              · simp only [hgp2]
                exact key
              · simp only [hgp2]
                exact key

theorem reach_inv (name : String) (st : FileStore) (orig : OrigBytes)
    (hre : ReachVS name st orig) : VSInv name st orig := by
  induction hre with
  | init =>
    exact vsinv_empty name
  | create st1 orig1 versionId uploadedAt fileSize sourceBytes _ hfresh
      hfresh2 hclock ih =>
    exact vsinv_create name versionId uploadedAt fileSize sourceBytes st1
      orig1 ih hfresh hfresh2 hclock
  | del st1 orig1 versionId _ ih =>
    exact vsinv_delete name versionId st1 orig1 ih
  | promote st1 orig1 versionId _ ih =>
    exact vsinv_promote name versionId st1 orig1 ih

/-- C5, counterexample.  In the reachable state `scnStore3` — v1 uploaded
with bytes [1], v2 with bytes [2], then v1 promoted — v2 is a stored version
whose original bytes were [2], yet promoting v2 fails with `Version file not
found` (its bytes were never archived: the promote archive step self-copies
the live path) and the live copy afterwards still holds v1's bytes [1], not
v2's bytes [2]. -/
theorem c5_counterexample :
    ReachVS "doc.txt" scnStore3 scnOrig
    ∧ scnV2 ∈ (readFileMetadata "doc.txt" scnStore3).versions
    ∧ mget scnOrig scnV2.versionId = some [2]
    ∧ errOf (promoteVersion "doc.txt" scnV2.versionId scnStore3).2
        = some (.notFound "Version file not found")
    ∧ (promoteVersion "doc.txt" scnV2.versionId scnStore3).1.liveFile
        = some [1] := by
  refine ⟨?_, by decide, by decide, by decide, by decide⟩
  exact ReachVS.promote scnStore2 scnOrig "v1"
    (ReachVS.create scnStore1 (mset [] "v1" [1]) "v2" 1 1 [2]
      (ReachVS.create emptyFileStore [] "v1" 0 1 [1] ReachVS.init
        (by decide) (by decide) (by decide))
      (by decide) (by decide) (by decide))

/-- C5, amended.  In every reachable state, when the promote of `vid`
succeeds with outcome `promoted v` the live copy afterwards holds exactly the
bytes originally stored for `v`; and when it succeeds with outcome
`alreadyCurrent v`, any present live copy already holds `v`'s original
bytes.  The unamended round-trip is refuted by `c5_counterexample`: a stored
version whose bytes were lost to the self-copying archive step makes the
promote fail, leaving the other version's bytes at the live path. -/
theorem c5_theorem (name vid : String) (st : FileStore) (orig : OrigBytes)
    (hre : ReachVS name st orig) :
    (∀ st' v, promoteVersion name vid st = (st', .ok (.promoted v)) →
      ∃ b, mget orig v.versionId = some b ∧ st'.liveFile = some b)
    ∧ (∀ st' v, promoteVersion name vid st = (st', .ok (.alreadyCurrent v)) →
      ∀ b, st'.liveFile = some b → mget orig v.versionId = some b) := by
  have inv := reach_inv name st orig hre
  constructor
  · intro st' v h
    unfold promoteVersion at h
    dsimp only at h
    rcases hfind : (readFileMetadata name st).versions.find?
        (fun v => v.versionId = vid) with _ | version
    · simp only [hfind] at h
      simp at h
    · simp only [hfind] at h
      by_cases hcur : some version.versionId
          = (readFileMetadata name st).currentVersion.map (·.versionId)
      · rw [if_pos hcur] at h
        simp at h
      · rw [if_neg hcur] at h
        rcases hpath : getFileVersionPath name st vid with _ | versionPath
        · simp only [hpath] at h
          simp at h
        · simp only [hpath] at h
          rcases hbytes : readPath st versionPath with _ | versionBytes
          · simp only [hbytes] at h
            simp at h
          · simp only [hbytes] at h
            injection h with h1 h2
            injection h2 with h3
            injection h3 with h4
            subst h4
            have hvmem : version ∈ (readFileMetadata name st).versions :=
              List.mem_of_find?_eq_some hfind
            have hpath' : versionPath = .versioned version.fileName := by
              unfold getFileVersionPath at hpath
              dsimp only at hpath
              simp only [hfind] at hpath
              rw [if_neg hcur] at hpath
              exact (Option.some.inj hpath).symm
            have hmg : mget st.versionFiles version.fileName
                = some versionBytes := by
              rw [hpath'] at hbytes
              exact hbytes
            obtain ⟨id, hfneq, horig⟩ := inv.arch_inv _ _ hmg
            have hext := inv.ext_eq version hvmem
            have hideq : id = version.versionId :=
              string_append_right_cancel _ _ _
                (by rw [← hfneq]; exact hext)
            refine ⟨versionBytes, by rw [← hideq]; exact horig, ?_⟩
            rw [← h1]
            rfl
  · intro st' v h
    unfold promoteVersion at h
    dsimp only at h
    rcases hfind : (readFileMetadata name st).versions.find?
        (fun v => v.versionId = vid) with _ | version
    · simp only [hfind] at h
      simp at h
    · simp only [hfind] at h
      by_cases hcur : some version.versionId
          = (readFileMetadata name st).currentVersion.map (·.versionId)
      · rw [if_pos hcur] at h
        injection h with h1 h2
        injection h2 with h3
        injection h3 with h4
        subst h4
        subst h1
        intro b hb
        obtain ⟨cv, hcv, horig⟩ := inv.live_inv b hb
        have hid : version.versionId = cv.versionId := by
          rw [hcv] at hcur
          exact Option.some.inj hcur
        rw [hid]
        exact horig
      · rw [if_neg hcur] at h
        rcases hpath : getFileVersionPath name st vid with _ | versionPath
        · simp only [hpath] at h
          simp at h
        · simp only [hpath] at h
          rcases hbytes : readPath st versionPath with _ | versionBytes
          · simp only [hbytes] at h
            simp at h
          · simp only [hbytes] at h
            injection h with h1 h2
            injection h2 with h3
            cases h3

/-- C5, witness: promoting v1 in the two-version scenario store succeeds,
and the live copy afterwards holds v1's original bytes; the reachability
hypothesis is discharged by replaying the two uploads. -/
theorem c5_witness :
    ∃ b, mget scnOrig scnV1.versionId = some b
      ∧ (promoteVersion "doc.txt" "v1" scnStore2).1.liveFile = some b :=
  ( c5_theorem "doc.txt" "v1" scnStore2 scnOrig
      (ReachVS.create scnStore1 (mset [] "v1" [1]) "v2" 1 1 [2]
        (ReachVS.create emptyFileStore [] "v1" 0 1 [1] ReachVS.init
          (by decide) (by decide) (by decide))
        (by decide) (by decide) (by decide))).1
    (promoteVersion "doc.txt" "v1" scnStore2).1 scnV1
    (Prod.ext rfl (by rfl))

end RTClip
